import Mathlib

/-!
# Verification of the `wail` tailing engine

Shallow embedding of the core of the `wail` repository (a `tail`-like
utility written in Go) together with proofs about its line/byte window
extraction, follow state machines and polling watcher.

Bytes are modelled as `Nat`, byte sequences as `List Nat`, Go strings as
`List Nat` (their bytes), `int`/`int64` values as `Int` where signedness
matters and `Nat` where the value is a length/position that the code keeps
non-negative.
-/

namespace Wail

/-- `maxLineSize` from `linereader.go`: the maximum line length (1 MiB). -/
def maxLineSize : Nat := 1024 * 1024

/-- `chunkSize` from `tailer.go`: the size of chunks for reading (64 KiB). -/
def chunkSize : Nat := 64 * 1024

/-- Index of the first occurrence of byte `d` in `data`
(`bytes.IndexByte`), `none` if absent. -/
def findDelim (d : Nat) : List Nat → Option Nat
  | [] => none
  | b :: rest => if b = d then some 0 else (findDelim d rest).map (· + 1)

/-- The trailing-`\r` strip performed by `scanLinesWithCRLF`:
`if len(line) > 0 && line[len(line)-1] == '\r' { line = line[:len(line)-1] }`. -/
def stripCR (line : List Nat) : List Nat :=
  if line.getLast? = some 13 then line.dropLast else line

/-- `scanLinesWithCRLF` from `linereader.go`: the `bufio.SplitFunc` for
newline-delimited input.  Returns `(advance, token?)`; errors are never
produced by this function itself.  `atEOF` is the flag the scanner passes. -/
def scanLinesWithCRLF (atEOF : Bool) (data : List Nat) : Nat × Option (List Nat) :=
  if atEOF ∧ data = [] then (0, none)
  else
    match findDelim 10 data with
    | some i => (i + 1, some (stripCR (data.take i)))
    | none =>
      if atEOF then (data.length, some (stripCR data))
      else (0, none)

/-- `makeScanDelimited delim` from `linereader.go`: the `bufio.SplitFunc`
for input delimited by an arbitrary byte (used with `'\x00'` for `-z`).
No `\r` stripping is performed. -/
def makeScanDelimited (delim : Nat) (atEOF : Bool) (data : List Nat) :
    Nat × Option (List Nat) :=
  if atEOF ∧ data = [] then (0, none)
  else
    match findDelim delim data with
    | some i => (i + 1, some (data.take i))
    | none =>
      if atEOF then (data.length, some data)
      else (0, none)

/-- Which `bufio.SplitFunc` a `lineReader` was built with:
`NewLineReader` installs `scanLinesWithCRLF`, `NewLineReaderWithDelimiter d`
installs `makeScanDelimited d`. -/
inductive SplitKind where
  | crlf : SplitKind
  | delimited : Nat → SplitKind
deriving DecidableEq

/-- Run the split function denoted by a `SplitKind`. -/
def SplitKind.run : SplitKind → Bool → List Nat → Nat × Option (List Nat)
  | .crlf => scanLinesWithCRLF
  | .delimited d => makeScanDelimited d

/-- The split kind selected by the tailer's `newLineReader` helper:
NUL-delimited for `ZeroTerminated` (`zt`), newline/CRLF otherwise. -/
def splitKindOf (zt : Bool) : SplitKind :=
  if zt then .delimited 0 else .crlf

theorem scanLinesWithCRLF_progress (data : List Nat) (h : data ≠ []) :
    1 ≤ (scanLinesWithCRLF true data).1 ∧ (scanLinesWithCRLF true data).2 ≠ none := by
  rw [scanLinesWithCRLF, if_neg (by simp [h])]
  rcases findDelim 10 data with _ | i
  · simpa using List.length_pos.mpr h
  · simp

theorem makeScanDelimited_progress (d : Nat) (data : List Nat) (h : data ≠ []) :
    1 ≤ (makeScanDelimited d true data).1 ∧ (makeScanDelimited d true data).2 ≠ none := by
  rw [makeScanDelimited, if_neg (by simp [h])]
  rcases findDelim d data with _ | i
  · simpa using List.length_pos.mpr h
  · simp

theorem SplitKind.run_progress (k : SplitKind) (data : List Nat) (h : data ≠ []) :
    1 ≤ (k.run true data).1 ∧ (k.run true data).2 ≠ none := by
  cases k
  · exact scanLinesWithCRLF_progress data h
  · exact makeScanDelimited_progress _ data h

theorem SplitKind.run_nil (k : SplitKind) : k.run true [] = (0, none) := by
  cases k <;> simp [SplitKind.run, scanLinesWithCRLF, makeScanDelimited]

/-- All tokens produced by repeatedly applying the selected split function
to the (fully known) remaining data.  This is the sequence of lines that a
`bufio.Scanner` using that split function emits for the given content,
ignoring the buffer-size limit (which is modelled separately in
`ReadLine`). -/
def allTokens (k : SplitKind) (data : List Nat) : List (List Nat) :=
  if hne : data = [] then []
  else
    match (k.run true data).2 with
    | none => []
    | some tok => tok :: allTokens k (data.drop (k.run true data).1)
termination_by data.length
decreasing_by
  simp only [List.length_drop]
  exact Nat.sub_lt (List.length_pos.mpr hne) (SplitKind.run_progress k data hne).1

theorem allTokens_nil (k : SplitKind) : allTokens k [] = [] := by
  rw [allTokens]; simp

theorem allTokens_step (k : SplitKind) (data : List Nat) (adv : Nat) (tok : List Nat)
    (hne : data ≠ []) (h : k.run true data = (adv, some tok)) :
    allTokens k data = tok :: allTokens k (data.drop adv) := by
  rw [allTokens, dif_neg hne, h]

/-- The delimiter byte a split kind searches for. -/
def SplitKind.delim : SplitKind → Nat
  | .crlf => 10
  | .delimited d => d

/-- The per-token post-processing a split kind performs. -/
def SplitKind.strip : SplitKind → List Nat → List Nat
  | .crlf, l => stripCR l
  | .delimited _, l => l

theorem SplitKind.run_eq (k : SplitKind) (data : List Nat) (hne : data ≠ []) :
    k.run true data =
      match findDelim k.delim data with
      | some i => (i + 1, some (k.strip (data.take i)))
      | none => (data.length, some (k.strip data)) := by
  cases k
  · rw [show SplitKind.crlf.run = scanLinesWithCRLF from rfl]
    rw [scanLinesWithCRLF, if_neg (by simp [hne])]
    simp only [SplitKind.delim, SplitKind.strip]
    rcases findDelim 10 data with _ | i <;> simp
  · rename_i d
    rw [show (SplitKind.delimited d).run = makeScanDelimited d from rfl]
    rw [makeScanDelimited, if_neg (by simp [hne])]
    simp only [SplitKind.delim, SplitKind.strip]
    rcases findDelim d data with _ | i <;> simp

theorem findDelim_of_not_mem {d : Nat} : ∀ {l : List Nat}, d ∉ l → findDelim d l = none := by
  intro l
  induction l with
  | nil => intro _; rfl
  | cons b rest ih =>
    intro h
    simp only [List.mem_cons, not_or] at h
    have hbd : ¬ b = d := fun hb => h.1 hb.symm
    simp only [findDelim]
    rw [if_neg hbd, ih h.2]
    rfl

theorem findDelim_append {d : Nat} (l rest : List Nat) (h : d ∉ l) :
    findDelim d (l ++ d :: rest) = some l.length := by
  induction l with
  | nil => simp [findDelim]
  | cons b t ih =>
    simp only [List.mem_cons, not_or] at h
    have hbd : ¬ b = d := fun hb => h.1 hb.symm
    rw [List.cons_append]
    simp only [findDelim]
    rw [if_neg hbd, ih h.2]
    simp

theorem findDelim_lt {d : Nat} : ∀ {l : List Nat} {i : Nat},
    findDelim d l = some i → i < l.length := by
  intro l
  induction l with
  | nil => intro i h; simp [findDelim] at h
  | cons b rest ih =>
    intro i h
    simp only [findDelim] at h
    by_cases hb : b = d
    · rw [if_pos hb] at h
      simp only [Option.some.injEq] at h
      simp
      omega
    · rw [if_neg hb] at h
      rcases hf : findDelim d rest with _ | j
      · rw [hf] at h; simp at h
      · rw [hf] at h
        simp only [Option.map_some', Option.some.injEq] at h
        have := ih hf
        simp
        omega

theorem SplitKind.run_adv_le (k : SplitKind) (data : List Nat) :
    (k.run true data).1 ≤ data.length := by
  rcases hne : data with _ | ⟨b, rest⟩
  · rw [SplitKind.run_nil]; simp
  · rw [SplitKind.run_eq k (b :: rest) (by simp)]
    rcases hf : findDelim k.delim (b :: rest) with _ | i
    · simp
    · have hlt := findDelim_lt hf
      simp at hlt ⊢
      omega

/-- The tokens of `l ++ delim :: rest` are the (stripped) `l` followed by
the tokens of `rest`. -/
theorem allTokens_cons (k : SplitKind) (l rest : List Nat) (h : k.delim ∉ l) :
    allTokens k (l ++ k.delim :: rest) = k.strip l :: allTokens k rest := by
  have hne : l ++ k.delim :: rest ≠ [] := by simp
  have hrun : k.run true (l ++ k.delim :: rest) = (l.length + 1, some (k.strip l)) := by
    rw [SplitKind.run_eq k _ hne, findDelim_append l rest h]
    simp [List.take_left]
  rw [allTokens_step k _ _ _ hne hrun]
  congr 1
  rw [show l ++ k.delim :: rest = l ++ [k.delim] ++ rest by simp]
  rw [show l.length + 1 = (l ++ [k.delim]).length by simp]
  rw [List.drop_left]

/-- A delimiter-free non-empty tail is emitted as a single final token. -/
theorem allTokens_last (k : SplitKind) (l : List Nat) (h : k.delim ∉ l) (hne : l ≠ []) :
    allTokens k l = [k.strip l] := by
  have hrun : k.run true l = (l.length, some (k.strip l)) := by
    rw [SplitKind.run_eq k _ hne, findDelim_of_not_mem h]
  rw [allTokens_step k _ _ _ hne hrun, List.drop_length, allTokens_nil]

/-- Errors a `lineReader.ReadLine` call can report: `io.EOF`, or
`bufio.ErrTooLong` (the spec's `LineTooLong`) when a line does not fit in
the scanner's `maxLineSize`-byte buffer. -/
inductive RErr where
  | eof : RErr
  | tooLong : RErr
deriving DecidableEq

/-- State of a `lineReader` (`linereader.go`): the installed split
function, the bytes not yet consumed from the underlying reader, and the
sticky error field `lr.err`. -/
structure LineReaderState where
  kind : SplitKind
  data : List Nat
  err : Option RErr
deriving DecidableEq

/-- `NewLineReader`: newline/CRLF splitting, `maxLineSize` buffer. -/
def NewLineReader (data : List Nat) : LineReaderState :=
  ⟨.crlf, data, none⟩

/-- `NewLineReaderWithDelimiter`: splitting on an arbitrary byte. -/
def NewLineReaderWithDelimiter (data : List Nat) (delim : Nat) : LineReaderState :=
  ⟨.delimited delim, data, none⟩

/-- The tailer's `newLineReader`: NUL delimiter when `ZeroTerminated`. -/
def newLineReader (zt : Bool) (data : List Nat) : LineReaderState :=
  if zt then NewLineReaderWithDelimiter data 0 else NewLineReader data

/-- The number of buffer bytes `bufio.Scanner` must hold before the next
token can be emitted.  A delimiter-terminated token needs the line
together with its delimiter buffered (`i + 1` bytes).  The final
unterminated token needs the whole remainder buffered and then one
further `Read` to observe `io.EOF` (the split function is only called
with `atEOF = true` after a read returned `io.EOF`); since the
buffer-full check (`len(buf) >= maxTokenSize → ErrTooLong`) runs before
every read, that extra read happens only while the buffer is not yet
full, so the remainder effectively occupies `length + 1` bytes. -/
def scanNeed (k : SplitKind) (data : List Nat) : Nat :=
  match findDelim k.delim data with
  | some i => i + 1
  | none => data.length + 1

theorem scanNeed_found {k : SplitKind} {data : List Nat} {i : Nat}
    (h : findDelim k.delim data = some i) : scanNeed k data = i + 1 := by
  rw [scanNeed, h]

theorem scanNeed_tail {k : SplitKind} {data : List Nat}
    (h : findDelim k.delim data = none) : scanNeed k data = data.length + 1 := by
  rw [scanNeed, h]

theorem scanNeed_le (k : SplitKind) (data : List Nat) :
    scanNeed k data ≤ data.length + 1 := by
  rcases hf : findDelim k.delim data with _ | i
  · rw [scanNeed_tail hf]
  · rw [scanNeed_found hf]
    have := findDelim_lt hf
    omega

theorem run_adv_le_scanNeed (k : SplitKind) (data : List Nat) (hne : data ≠ []) :
    (k.run true data).1 ≤ scanNeed k data := by
  rcases hf : findDelim k.delim data with _ | i
  · rw [SplitKind.run_eq k data hne, hf, scanNeed_tail hf]
    dsimp only
    omega
  · rw [SplitKind.run_eq k data hne, hf, scanNeed_found hf]

/-- `lineReader.ReadLine`.  A sticky error is returned for ever after; a
successful scan returns the token and consumes `advance` bytes; when the
scanner stops, the error is `io.EOF` if the input was exhausted and
`bufio.ErrTooLong` if the bytes the scanner must buffer for the next
token (`scanNeed`) exceed the `maxLineSize`-byte buffer `NewLineReader`
configured (`scanner.Buffer(..., maxLineSize)`): the scanner errors when
its buffer is full and the split function still requests more data,
which also rejects a final unterminated line of exactly `maxLineSize`
bytes — the buffer fills before `io.EOF` is ever observed. -/
def ReadLine (st : LineReaderState) : (List Nat × Option RErr) × LineReaderState :=
  match st.err with
  | some e => (([], some e), st)
  | none =>
    match st.kind.run true st.data with
    | (_, none) => (([], some .eof), { st with err := some .eof })
    | (adv, some tok) =>
      if scanNeed st.kind st.data ≤ maxLineSize
      then ((tok, none), { st with data := st.data.drop adv })
      else (([], some .tooLong), { st with err := some .tooLong })

theorem ReadLine_shrink (st : LineReaderState) (h : (ReadLine st).1.2 = none) :
    (ReadLine st).2.data.length < st.data.length := by
  obtain ⟨k, data, err⟩ := st
  rcases err with _ | e
  · rcases data with _ | ⟨b, rest⟩
    · simp [ReadLine, SplitKind.run_nil] at h
    · have hprog := SplitKind.run_progress k (b :: rest) (by simp)
      rcases hrun : k.run true (b :: rest) with ⟨adv, tok⟩
      rw [hrun] at hprog
      rcases tok with _ | tok
      · simp at hprog
      · by_cases hle : scanNeed k (b :: rest) ≤ maxLineSize
        · simp only [ReadLine, hrun, if_pos hle, List.length_drop]
          exact Nat.sub_lt (by simp) hprog.1
        · simp [ReadLine, hrun, hle] at h
  · simp [ReadLine] at h

/-- Repeatedly calling `ReadLine` until `io.EOF` (collecting the lines) or
another error (propagating it): the read loop shared by
`readLastNLinesForward` and `readFromLineN`. -/
def readAll (st : LineReaderState) : Except RErr (List (List Nat)) :=
  if h : (ReadLine st).1.2 = none then
    (readAll (ReadLine st).2).map ((ReadLine st).1.1 :: ·)
  else if (ReadLine st).1.2 = some RErr.eof then .ok []
  else .error RErr.tooLong
termination_by st.data.length
decreasing_by exact ReadLine_shrink st h

theorem readAll_cons (st : LineReaderState) (h : (ReadLine st).1.2 = none) :
    readAll st = (readAll (ReadLine st).2).map ((ReadLine st).1.1 :: ·) := by
  rw [readAll, dif_pos h]

theorem readAll_eof (st : LineReaderState) (h : (ReadLine st).1.2 = some RErr.eof) :
    readAll st = .ok [] := by
  rw [readAll, dif_neg (by simp [h]), if_pos h]

theorem readAll_tooLong (st : LineReaderState) (h : (ReadLine st).1.2 = some RErr.tooLong) :
    readAll st = .error RErr.tooLong := by
  rw [readAll, dif_neg (by simp [h]), if_neg (by simp [h])]

theorem ReadLine_err (st : LineReaderState) (e : RErr) (h : st.err = some e) :
    ReadLine st = (([], some e), st) := by
  rw [ReadLine, h]

theorem ReadLine_nil (k : SplitKind) :
    ReadLine ⟨k, [], none⟩ = (([], some RErr.eof), ⟨k, [], some RErr.eof⟩) := by
  rw [ReadLine]
  simp only []
  rw [show SplitKind.run k true [] = (0, none) from SplitKind.run_nil k]

theorem ReadLine_ok (k : SplitKind) (data : List Nat) (adv : Nat) (tok : List Nat)
    (hrun : k.run true data = (adv, some tok)) (hle : scanNeed k data ≤ maxLineSize) :
    ReadLine ⟨k, data, none⟩ = ((tok, none), ⟨k, data.drop adv, none⟩) := by
  rw [ReadLine]
  simp only []
  rw [hrun]
  simp [hle]

theorem ReadLine_tooLong (k : SplitKind) (data : List Nat) (adv : Nat) (tok : List Nat)
    (hrun : k.run true data = (adv, some tok))
    (hgt : maxLineSize < scanNeed k data) :
    ReadLine ⟨k, data, none⟩ = (([], some RErr.tooLong), ⟨k, data, some RErr.tooLong⟩) := by
  rw [ReadLine]
  simp only []
  rw [hrun]
  simp [Nat.not_le.mpr hgt]

/-- `TokensOk k data` says every token of `data` (together with the bytes
the scanner must buffer to produce it) fits in the `maxLineSize` buffer,
i.e. scanning never fails with `ErrTooLong`. -/
def TokensOk (k : SplitKind) (data : List Nat) : Prop :=
  if hne : data = [] then True
  else scanNeed k data ≤ maxLineSize ∧ TokensOk k (data.drop (k.run true data).1)
termination_by data.length
decreasing_by
  simp only [List.length_drop]
  exact Nat.sub_lt (List.length_pos.mpr hne) (SplitKind.run_progress k data hne).1

theorem TokensOk_nil (k : SplitKind) : TokensOk k [] := by
  rw [TokensOk]; simp

theorem TokensOk_step (k : SplitKind) (data : List Nat) (hne : data ≠ []) :
    TokensOk k data ↔
      scanNeed k data ≤ maxLineSize ∧ TokensOk k (data.drop (k.run true data).1) := by
  conv_lhs => rw [TokensOk]
  rw [dif_neg hne]

/-- Characterisation of the `ReadLine` loop: it succeeds exactly when no
token overflows the buffer, and then returns precisely the split tokens. -/
theorem readAll_ok_iff (k : SplitKind) (data : List Nat) (ls : List (List Nat)) :
    readAll ⟨k, data, none⟩ = .ok ls ↔ TokensOk k data ∧ ls = allTokens k data := by
  have main : ∀ (len : Nat) (data : List Nat) (ls : List (List Nat)), data.length = len →
      (readAll ⟨k, data, none⟩ = .ok ls ↔ TokensOk k data ∧ ls = allTokens k data) := by
    intro len
    induction len using Nat.strong_induction_on with
    | _ len ih =>
    intro data ls hlen
    have ihd : ∀ (d : List Nat) (ls' : List (List Nat)), d.length < data.length →
        (readAll ⟨k, d, none⟩ = .ok ls' ↔ TokensOk k d ∧ ls' = allTokens k d) :=
      fun d ls' hlt => ih d.length (hlen ▸ hlt) d ls' rfl
    by_cases hne' : data = []
    · subst hne'
      rw [readAll_eof _ (by rw [ReadLine_nil])]
      simp [TokensOk_nil, allTokens_nil]
    · have hprog := SplitKind.run_progress k data hne'
      rcases hrun : k.run true data with ⟨adv, otok⟩
      rcases otok with _ | tok
      · rw [hrun] at hprog; simp at hprog
      · by_cases hle : scanNeed k data ≤ maxLineSize
        · have hrl := ReadLine_ok k data adv tok hrun hle
          rw [readAll_cons _ (by rw [hrl])]
          rw [hrl]
          have hlt : (data.drop adv).length < data.length := by
            simp only [List.length_drop]
            rw [hrun] at hprog
            exact Nat.sub_lt (List.length_pos.mpr hne') hprog.1
          constructor
          · intro h
            rcases hmap : readAll ⟨k, List.drop adv data, none⟩ with e | ls'
            · rw [hmap] at h; simp [Except.map] at h
            · rw [hmap] at h
              simp only [Except.map] at h
              have h2 := (ihd _ _ hlt).mp hmap
              refine ⟨?_, ?_⟩
              · rw [TokensOk_step k data hne', hrun]
                exact ⟨hle, h2.1⟩
              · rw [allTokens_step k data adv tok hne' hrun]
                simp only [Except.ok.injEq] at h
                rw [← h, h2.2]
          · intro ⟨hok, hlseq⟩
            rw [TokensOk_step k data hne', hrun] at hok
            have h2 := (ihd _ (allTokens k (data.drop adv)) hlt).mpr ⟨hok.2, rfl⟩
            rw [h2]
            simp only [Except.map]
            rw [hlseq, allTokens_step k data adv tok hne' hrun]
        · have hrl := ReadLine_tooLong k data adv tok hrun (Nat.not_le.mp hle)
          rw [readAll_tooLong _ (by rw [hrl])]
          constructor
          · intro h; simp at h
          · intro ⟨hok, _⟩
            rw [TokensOk_step k data hne', hrun] at hok
            exact absurd hok.1 hle
  exact main data.length data ls rfl

/-- Inputs strictly shorter than the buffer never overflow it: every
token needs at most `length + 1 ≤ maxLineSize` buffered bytes. -/
theorem TokensOk_small (k : SplitKind) (data : List Nat)
    (hlen : data.length < maxLineSize) : TokensOk k data := by
  have main : ∀ (len : Nat) (data : List Nat), data.length = len →
      data.length < maxLineSize → TokensOk k data := by
    intro len
    induction len using Nat.strong_induction_on with
    | _ len ih =>
    intro data hl hsmall
    by_cases hne : data = []
    · rw [hne]; exact TokensOk_nil k
    · rw [TokensOk_step k data hne]
      have hneed := scanNeed_le k data
      refine ⟨by omega, ?_⟩
      have hprog := SplitKind.run_progress k data hne
      have hlt : (data.drop (k.run true data).1).length < data.length := by
        simp only [List.length_drop]
        exact Nat.sub_lt (List.length_pos.mpr hne) hprog.1
      exact ih _ (hl ▸ hlt) _ rfl (by omega)
  exact main data.length data rfl hlen

/-- Inputs strictly shorter than the buffer always scan successfully. -/
theorem readAll_small (k : SplitKind) (data : List Nat)
    (hlen : data.length < maxLineSize) :
    readAll ⟨k, data, none⟩ = .ok (allTokens k data) := by
  rw [readAll_ok_iff]
  exact ⟨TokensOk_small k data hlen, rfl⟩

/-! ## The ring buffer of `readLastNLinesForward` -/

/-- The insertion loop of `readLastNLinesForward`:
`ring[count%n] = line; count++` for each line read. -/
def ringLoop {α : Type} (n : Nat) : List α → Nat → List α → List α × Nat
  | ring, count, [] => (ring, count)
  | ring, count, x :: xs => ringLoop n (ring.set (count % n) x) (count + 1) xs

/-- The read-out of `readLastNLinesForward`: `ring[:count]` when
`count <= n`, otherwise `result[i] = ring[(start+i)%n]` with
`start = count % n`. -/
def ringRead {α : Type} (d0 : α) (n : Nat) (ring : List α) (count : Nat) : List α :=
  if count ≤ n then ring.take count
  else (List.range n).map (fun i => ring.getD ((count % n + i) % n) d0)

/-- Insert every element of `ls` into a fresh ring of capacity `n`
(initialised with `d0`, as `make([]string, n)` does) and read it out. -/
def lastN {α : Type} (d0 : α) (n : Nat) (ls : List α) : List α :=
  let r := ringLoop n (List.replicate n d0) 0 ls
  ringRead d0 n r.1 r.2

/-- `readLastNLinesForward` from `tailer.go`: read all lines, keeping the
last `n` in a ring buffer, where `n` is `config.Lines` defaulted to 10
when zero or negative. -/
def readLastNLinesForward (zt : Bool) (cfgLines : Int) (content : List Nat) :
    Except RErr (List (List Nat)) :=
  let n : Nat := if cfgLines ≤ 0 then 10 else cfgLines.toNat
  (readAll (newLineReader zt content)).map (lastN [] n)

/-- Ring-buffer invariant: after inserting all of `all` (count =
`all.length`), slot `(count + i) % n` holds the still-unwritten default
when fewer than `n` items ever hashed there, and otherwise the element of
`all` that will be read out at offset `i`. -/
def RingInv {α : Type} (d0 : α) (n : Nat) (all ring : List α) : Prop :=
  ring.length = n ∧
    ∀ i, i < n → ring.getD ((all.length + i) % n) d0 =
      if all.length + i < n then d0 else all.getD (all.length + i - n) d0

theorem ringInv_nil {α : Type} (d0 : α) (n : Nat) :
    RingInv d0 n [] (List.replicate n d0) := by
  refine ⟨by simp, fun i hi => ?_⟩
  simp only [List.length_nil, Nat.zero_add]
  rw [Nat.mod_eq_of_lt hi, if_pos hi]
  simp [List.getD_eq_getElem?_getD, List.getElem?_replicate, hi]

theorem ringInv_set {α : Type} {d0 : α} {n : Nat} {all ring : List α} {x : α}
    (hn : 1 ≤ n) (h : RingInv d0 n all ring) :
    RingInv d0 n (all ++ [x]) (ring.set (all.length % n) x) := by
  obtain ⟨hlen, hinv⟩ := h
  refine ⟨by simp [hlen], fun i hi => ?_⟩
  have hlenx : (all ++ [x]).length = all.length + 1 := by simp
  rw [hlenx]
  by_cases hi' : i = n - 1
  · subst hi'
    have h1 : all.length + 1 + (n - 1) = all.length + n := by omega
    rw [h1, Nat.add_mod_right]
    have hsetlen : all.length % n < ring.length := by
      rw [hlen]; exact Nat.mod_lt _ hn
    rw [List.getD_eq_getElem?_getD, List.getElem?_set_self hsetlen]
    rw [if_neg (by omega)]
    have h2 : all.length + n - n = all.length := by omega
    rw [h2, List.getD_append_right _ _ _ _ (le_refl _)]
    simp [List.getD]
  · have hi2 : i + 1 < n := by omega
    have hne : all.length % n ≠ (all.length + 1 + i) % n := by
      intro heq
      have h3 : all.length + (1 + i) ≡ all.length + 0 [MOD n] := by
        unfold Nat.ModEq
        rw [Nat.add_zero, ← Nat.add_assoc]
        exact heq.symm
      have h4 : (1 + i) ≡ 0 [MOD n] := Nat.ModEq.add_left_cancel' all.length h3
      have h5 : (1 + i) % n = 0 := by simpa [Nat.ModEq] using h4
      have h6 : (1 + i) % n = 1 + i := Nat.mod_eq_of_lt (by omega)
      omega
    rw [List.getD_eq_getElem?_getD, List.getElem?_set_ne hne,
      ← List.getD_eq_getElem?_getD]
    have h6 : all.length + 1 + i = all.length + (i + 1) := by omega
    rw [h6]
    rw [hinv (i + 1) hi2]
    by_cases hc : all.length + (i + 1) < n
    · rw [if_pos hc, if_pos (by omega)]
    · rw [if_neg hc, if_neg (by omega)]
      rw [List.getD_append _ _ _ _ (by omega)]

theorem ringLoop_inv {α : Type} {d0 : α} {n : Nat} (hn : 1 ≤ n) :
    ∀ (xs all ring : List α), RingInv d0 n all ring →
      (ringLoop n ring all.length xs).2 = all.length + xs.length ∧
      RingInv d0 n (all ++ xs) (ringLoop n ring all.length xs).1 := by
  intro xs
  induction xs with
  | nil => intro all ring h; simpa [ringLoop] using h
  | cons x xs ih =>
    intro all ring h
    have h' := ringInv_set (x := x) hn h
    have := ih (all ++ [x]) (ring.set (all.length % n) x) h'
    rw [List.length_append, List.length_singleton] at this
    rw [ringLoop]
    refine ⟨?_, ?_⟩
    · rw [this.1]; simp; omega
    · have h2 := this.2
      rwa [List.append_assoc, List.singleton_append] at h2

theorem ringRead_eq {α : Type} {d0 : α} {n : Nat} {all ring : List α}
    (hn : 1 ≤ n) (h : RingInv d0 n all ring) :
    ringRead d0 n ring all.length = all.drop (all.length - n) := by
  obtain ⟨hlen, hinv⟩ := h
  by_cases hcn : all.length ≤ n
  · rw [ringRead, if_pos hcn]
    have hz : all.length - n = 0 := by omega
    rw [hz, List.drop_zero]
    apply List.ext_getElem
    · simp [hlen]; omega
    · intro p h1 h2
      have hp : p < all.length := h2
      have hi : n - all.length + p < n := by omega
      have hv := hinv (n - all.length + p) hi
      have harg : all.length + (n - all.length + p) = n + p := by omega
      rw [harg, Nat.add_mod_left, Nat.mod_eq_of_lt (by omega), if_neg (by omega)] at hv
      have harg2 : n + p - n = p := by omega
      rw [harg2] at hv
      rw [List.getElem_take,
        ← List.getD_eq_getElem ring d0 (show p < ring.length by omega),
        ← List.getD_eq_getElem all d0 hp]
      exact hv
  · rw [ringRead, if_neg hcn]
    apply List.ext_getElem
    · simp [hlen]; omega
    · intro i h1 h2
      have hi : i < n := by simpa using h1
      have hv := hinv i hi
      rw [if_neg (by omega)] at hv
      rw [List.getElem_map, List.getElem_range, List.getElem_drop, Nat.mod_add_mod,
        ← List.getD_eq_getElem all d0 (show all.length - n + i < all.length by omega)]
      have harg : all.length - n + i = all.length + i - n := by omega
      rw [harg]
      exact hv

/-- Main ring-buffer property: for capacity `n ≥ 1`, inserting a list and
reading out yields exactly its last `min n (length)` elements in order. -/
theorem lastN_eq_drop {α : Type} (d0 : α) {n : Nat} (hn : 1 ≤ n) (ls : List α) :
    lastN d0 n ls = ls.drop (ls.length - n) := by
  have h := ringLoop_inv hn ls [] (List.replicate n d0) (ringInv_nil d0 n)
  simp only [List.length_nil, List.nil_append] at h
  show ringRead d0 n (ringLoop n (List.replicate n d0) 0 ls).1
      (ringLoop n (List.replicate n d0) 0 ls).2 = List.drop (ls.length - n) ls
  rw [h.1, Nat.zero_add]
  exact ringRead_eq hn h.2

/-! ## Backward scanning (`readLastNLinesBackward`) -/

/-- The inner loop of `readLastNLinesBackward` scanning one chunk
backwards (`for i := n - 1; i >= 0; i--`), counting delimiters.  The
first list argument is the chunk reversed (so the scan is structural),
`idx` is the chunk index of the byte currently examined.  Returns the
updated count and, when the count reached `needed`, the chunk index of
the delimiter where the scan stopped. -/
def countDelimsBack (d : Nat) (needed : Int) : List Nat → Int → Nat → Int × Option Nat
  | [], found, _ => (found, none)
  | b :: rbs, found, idx =>
    if b = d then
      if found + 1 ≥ needed then (found + 1, some idx)
      else countDelimsBack d needed rbs (found + 1) (idx - 1)
    else countDelimsBack d needed rbs found (idx - 1)

/-- The outer loop of `readLastNLinesBackward`: `pos` walks backwards one
chunk at a time from EOF until `needed` delimiters were counted or the
start of file is reached; returns the byte offset at which the final
forward scan starts. -/
def backwardLoop (d : Nat) (needed : Int) (content : List Nat) (pos : Nat) (found : Int) : Nat :=
  if h : 0 < pos ∧ found < needed then
    let readSize := min chunkSize pos
    let chunk := (content.drop (pos - readSize)).take readSize
    match countDelimsBack d needed chunk.reverse found (chunk.length - 1) with
    | (_, some i) => pos - readSize + i + 1
    | (found', none) => backwardLoop d needed content (pos - readSize) found'
  else pos
termination_by pos
decreasing_by
  have h1 : 1 ≤ min chunkSize pos := le_min (by norm_num [chunkSize]) h.1
  omega

/-- `readLastNLinesBackward` from `tailer.go`: empty files yield nothing,
files of at most one chunk are scanned forward directly, larger files are
scanned backwards for `config.Lines + 1` delimiters and then forward from
the found offset. -/
def readLastNLinesBackward (zt : Bool) (cfgLines : Int) (content : List Nat) :
    Except RErr (List (List Nat)) :=
  if content.length = 0 then .ok []
  else if content.length ≤ chunkSize then readLastNLinesForward zt cfgLines content
  else
    let d : Nat := if zt then 0 else 10
    let pos := backwardLoop d (cfgLines + 1) content content.length 0
    readLastNLinesForward zt cfgLines (content.drop pos)

/-- `readLastNLines`: the backward scan for seekable inputs, the forward
ring-buffer scan otherwise. -/
def readLastNLines (zt : Bool) (cfgLines : Int) (seekable : Bool) (content : List Nat) :
    Except RErr (List (List Nat)) :=
  if seekable then readLastNLinesBackward zt cfgLines content
  else readLastNLinesForward zt cfgLines content

/-! ## Output (`writeLines`) -/

/-- `writeLines` from `tailer.go`: each line is written followed by the
output delimiter — `fmt.Fprintln` appends `'\n'`, the `-z` branch
appends `'\x00'`. -/
def writeLines (zt : Bool) (lines : List (List Nat)) : List Nat :=
  (lines.map (fun l => l ++ [if zt then 0 else 10])).flatten

/-- The bytes a non-follow "last N lines" request on a seekable file
emits: the `readLastNLines` result printed through `writeLines`. -/
def tailOutput (zt : Bool) (cfgLines : Int) (content : List Nat) :
    Except RErr (List Nat) :=
  (readLastNLines zt cfgLines true content).map (writeLines zt)

/-! ## Byte mode for non-seekable readers (`tailReaderBytes`) -/

/-- One slice write `copy`-step: writing `bs` into `buf` starting at
index `p` (as `Read` does into `buf[p:...]`). -/
def writeAt : List Nat → Nat → List Nat → List Nat
  | buf, _, [] => buf
  | buf, p, b :: bs => writeAt (buf.set p b) (p + 1) bs

/-- The number of bytes one `Read` call of the `tailReaderBytes` loop
consumes: the slice passed to `Read` is
`buf[total%n : min(n, total%n+chunkSize)]`, the reader offers
`sched step` bytes at iteration `step` (clamped to at least one byte — a
reader for ever returning `0, nil` would also hang the Go loop), and at
most the rest of the input remains. -/
def tailReadN (n : Nat) (sched : Nat → Nat) (step total : Nat) (input : List Nat) : Nat :=
  min (min (min n (total % n + chunkSize) - total % n) (max (sched step) 1)) input.length

/-- The read loop of `tailReaderBytes` in last-`n`-bytes mode: each
iteration reads `tailReadN` bytes into the ring buffer at offset
`total % n` and advances `total`; the loop ends at end of input
(`io.EOF`).  The guard on `tailReadN = 0` is unreachable for `n ≥ 1` and
only makes the recursion total. -/
def tailBytesLoop (n : Nat) (sched : Nat → Nat) (step : Nat) (buf : List Nat)
    (total : Nat) (input : List Nat) : List Nat × Nat :=
  if hne : input = [] then (buf, total)
  else if hz : tailReadN n sched step total input = 0 then (buf, total)
  else
    tailBytesLoop n sched (step + 1)
      (writeAt buf (total % n) (input.take (tailReadN n sched step total input)))
      (total + tailReadN n sched step total input)
      (input.drop (tailReadN n sched step total input))
termination_by input.length
decreasing_by
  simp only [List.length_drop]
  have hpos : 0 < input.length := List.length_pos.mpr hne
  omega

theorem tailBytesLoop_nil (n : Nat) (sched : Nat → Nat) (step : Nat) (buf : List Nat)
    (total : Nat) : tailBytesLoop n sched step buf total [] = (buf, total) := by
  rw [tailBytesLoop, dif_pos rfl]

theorem tailBytesLoop_step (n : Nat) (sched : Nat → Nat) (step : Nat) (buf : List Nat)
    (total : Nat) (input : List Nat) (hne : input ≠ [])
    (hz : tailReadN n sched step total input ≠ 0) :
    tailBytesLoop n sched step buf total input =
      tailBytesLoop n sched (step + 1)
        (writeAt buf (total % n) (input.take (tailReadN n sched step total input)))
        (total + tailReadN n sched step total input)
        (input.drop (tailReadN n sched step total input)) := by
  rw [tailBytesLoop, dif_neg hne, dif_neg hz]

/-- `tailReaderBytes` from `tailer.go` (byte mode for non-seekable
readers): `+N` (`fromStart`) discards the first `N-1` bytes and streams
the rest; `-N` retains only the last `N` bytes via the circular buffer
`buf := make([]byte, n)` and, at EOF, emits `buf[:total]` when the buffer
never wrapped and `buf[total%n:] ++ buf[:total%n]` otherwise. -/
def tailReaderBytes (fromStart : Bool) (bytes : Int) (sched : Nat → Nat)
    (input : List Nat) : List Nat :=
  if fromStart then
    input.drop (max (bytes - 1) 0).toNat
  else
    let n := bytes.toNat
    let r := tailBytesLoop n sched 0 (List.replicate n 0) 0 input
    if r.2 = 0 then []
    else if r.2 ≤ n then r.1.take r.2
    else r.1.drop (r.2 % n) ++ r.1.take (r.2 % n)

/-! ## The follow state machines -/

/-- The collected lines of the inner read loop both follow variants run
each tick: call `ReadLine`, write the line out, stop on `io.EOF` or any
other error. -/
def readLinesLoop (st : LineReaderState) : List (List Nat) :=
  if h : (ReadLine st).1.2 = none then (ReadLine st).1.1 :: readLinesLoop (ReadLine st).2
  else []
termination_by st.data.length
decreasing_by exact ReadLine_shrink st h

/-- Mutable per-loop state of `followByName`: the resume offset
`lastPos`, the last observed size, the last observed identity (an
`os.FileInfo` compared via `os.SameFile`, modelled as an opaque token;
`none` when the initial stat failed), and the unchanged-tick counter. -/
structure FollowState where
  lastPos : Int
  lastSize : Int
  lastFileInfo : Option Nat
  unchangedCount : Int
deriving DecidableEq

/-- What one `followByName` tick observes: the `os.Stat` result (identity
and size; `none` on stat error), the re-stat result used when the
unchanged threshold fires, and the file content seen through the freshly
opened handle (`none` when `opener.Open` fails). -/
structure TickObs where
  stat : Option (Nat × Int)
  restat : Option (Nat × Int)
  file : Option (List Nat)

/-- Result of one `followByName` tick: the updated state, the offset the
tick read from (`none` when it skipped), and the lines it wrote. -/
structure TickResult where
  state : FollowState
  readFrom : Option Int
  out : List (List Nat)
deriving DecidableEq

/-- The rotation check of the `followByName` tick: when following by
name, a changed file identity resets position and size and adopts the
new identity. -/
def rotationCheck (followName : Bool) (st : FollowState) (ident : Nat) : FollowState :=
  if followName ∧ st.lastFileInfo ≠ none ∧ st.lastFileInfo ≠ some ident then
    ⟨0, 0, some ident, 0⟩
  else st

/-- The truncation check of the `followByName` tick: a size smaller than
the last-known size resets the position and adopts the new size. -/
def truncationCheck (st : FollowState) (currentSize : Int) : FollowState :=
  if currentSize < st.lastSize then
    ⟨0, currentSize, st.lastFileInfo, st.unchangedCount⟩
  else st

/-- The no-change branch of the `followByName` tick: bump the unchanged
counter; once `MaxUnchangedStats` is configured and reached, re-stat and
reset position/size/identity if the identity moved, then clear the
counter. -/
def unchangedTick (followName : Bool) (maxU : Int) (st : FollowState)
    (restat : Option (Nat × Int)) : FollowState :=
  let uc := st.unchangedCount + 1
  if followName ∧ maxU > 0 ∧ uc ≥ maxU then
    match restat with
    | some (ident2, _) =>
      if st.lastFileInfo ≠ none ∧ st.lastFileInfo ≠ some ident2 then
        ⟨0, 0, some ident2, 0⟩
      else ⟨st.lastPos, st.lastSize, st.lastFileInfo, 0⟩
    | none => ⟨st.lastPos, st.lastSize, st.lastFileInfo, 0⟩
  else ⟨st.lastPos, st.lastSize, st.lastFileInfo, uc⟩

/-- The read phase of the `followByName` tick: skip when the reopen
fails; otherwise seek to `lastPos`, drain lines, and advance.  The
resume offset after a drain is the end of the content the handle
exposed. -/
def readPhase (zt : Bool) (st : FollowState) (ident : Nat) (currentSize : Int)
    (file : Option (List Nat)) : TickResult :=
  match file with
  | none => ⟨⟨st.lastPos, st.lastSize, st.lastFileInfo, 0⟩, none, []⟩
  | some content =>
    ⟨⟨max st.lastPos (content.length : Int), currentSize, some ident, 0⟩,
      some st.lastPos,
      readLinesLoop ⟨splitKindOf zt, content.drop st.lastPos.toNat, none⟩⟩

/-- The body of the `followByName` poll tick (`tailer.go`, the
`case <-ticker.C` branch): skip on stat error; else run the rotation and
truncation checks, skip (with unchanged-count handling) when size and
position all match the observation, and otherwise reopen and read. -/
def followTick (followName : Bool) (maxUnchangedStats : Int) (zt : Bool)
    (st : FollowState) (obs : TickObs) : TickResult :=
  match obs.stat with
  | none => ⟨st, none, []⟩
  | some (ident, currentSize) =>
    let st2 := truncationCheck (rotationCheck followName st ident) currentSize
    if currentSize = st2.lastSize ∧ currentSize = st2.lastPos then
      ⟨unchangedTick followName maxUnchangedStats st2 obs.restat, none, []⟩
    else readPhase zt st2 ident currentSize obs.file

/-- The `followByName` poll loop: every iteration first consults
`processExists` for a configured PID and returns `nil` (success) if the
process died; the tick list ending models context cancellation, which
also returns `nil`. -/
def followByNameLoop (pid : Int) (alive : Int → Bool) (followName : Bool)
    (maxUnchangedStats : Int) (zt : Bool) :
    FollowState → List TickObs → Except String (List (List Nat))
  | _, [] => .ok []
  | st, obs :: rest =>
    if pid > 0 ∧ ¬ alive pid then .ok []
    else
      let r := followTick followName maxUnchangedStats zt st obs
      (followByNameLoop pid alive followName maxUnchangedStats zt r.state rest).map
        (r.out ++ ·)

/-- `followByName` from `tailer.go`: the initial stat seeds the last-known
size and identity (both zero/absent when it fails), then the poll loop
runs. -/
def followByName (pid : Int) (alive : Int → Bool) (followName : Bool)
    (maxUnchangedStats : Int) (zt : Bool) (startPos : Int)
    (initStat : Option (Nat × Int)) (ticks : List TickObs) :
    Except String (List (List Nat)) :=
  let st : FollowState :=
    match initStat with
    | some (ident, size) => ⟨startPos, size, some ident, 0⟩
    | none => ⟨startPos, 0, none, 0⟩
  followByNameLoop pid alive followName maxUnchangedStats zt st ticks

/-- `followByDescriptor` from `tailer.go`: holds the original handle; the
per-tick observation is the content of that file (by identity, rename
oblivious).  Every iteration first consults `processExists` for a
configured PID and returns `nil` (success) if the process died; each tick
seeks to `lastPos`, drains lines, and advances the position to the end of
the drained content. -/
def followByDescriptor (pid : Int) (alive : Int → Bool) (zt : Bool) :
    Int → List (List Nat) → Except String (List (List Nat))
  | _, [] => .ok []
  | pos, content :: rest =>
    if pid > 0 ∧ ¬ alive pid then .ok []
    else
      let lines := readLinesLoop ⟨splitKindOf zt, content.drop pos.toNat, none⟩
      let newPos := max pos (content.length : Int)
      (followByDescriptor pid alive zt newPos rest).map (lines ++ ·)

/-! ## The polling watcher (`internal/watcher/watcher.go`) -/

/-- A file change event: the new size, and whether the file shrank. -/
structure Event where
  size : Int
  truncated : Bool
deriving DecidableEq

/-- One poll tick of `pollingWatcher.Watch`: stat failure skips the tick;
an unchanged size emits nothing; otherwise an event carrying the new size
with `Truncated` set exactly when the size decreased is emitted and the
size is remembered. -/
def watchTick (lastSize : Int) (obs : Option Int) : Option Event × Int :=
  match obs with
  | none => (none, lastSize)
  | some size =>
    if size = lastSize then (none, lastSize)
    else (some ⟨size, decide (size < lastSize)⟩, size)

/-- The poll loop of `pollingWatcher.Watch` over a list of per-tick stat
observations (`none` = stat error). -/
def watchRun (lastSize : Int) : List (Option Int) → List Event
  | [] => []
  | obs :: rest =>
    match watchTick lastSize obs with
    | (none, s') => watchRun s' rest
    | (some e, s') => e :: watchRun s' rest

/-- `pollingWatcher.Watch`: an initial stat failure is returned as an
error; otherwise the initial size seeds the loop and the event stream is
produced. -/
def Watch (initStat : Option Int) (ticks : List (Option Int)) :
    Except String (List Event) :=
  match initStat with
  | none => .error "accessing path"
  | some size => .ok (watchRun size ticks)

/-! ## Claim theorems -/

/-- **C1**: for every file or stream whose content splits into `L ≥ 0`
lines and every request for the last `N` lines (`N ≥ 1`), the forward
ring-buffer scan outputs all `L` lines in order when `L ≤ N` and exactly
the last `N` lines in original order when `L > N`: after inserting `M ≥ N`
lines the ring read-out is the `N` most recently inserted lines in
insertion order. -/
theorem readLastNLinesForward_correct (zt : Bool) (N : Int) (content : List Nat)
    (ls : List (List Nat)) (hN : 1 ≤ N)
    (h : readAll (newLineReader zt content) = .ok ls) :
    readLastNLinesForward zt N content =
      .ok (if ls.length ≤ N.toNat then ls else ls.drop (ls.length - N.toNat)) := by
  unfold readLastNLinesForward
  rw [h]
  rw [if_neg (by omega)]
  simp only [Except.map]
  congr 1
  rw [lastN_eq_drop _ (by omega) ls]
  by_cases hle : ls.length ≤ N.toNat
  · rw [if_pos hle, Nat.sub_eq_zero_of_le hle, List.drop_zero]
  · rw [if_neg hle]

theorem readLastNLinesForward_correct_witness :
    readLastNLinesForward false 2 [97, 10, 98, 10, 99, 10] = .ok [[98], [99]] := by
  have h1 : allTokens SplitKind.crlf [97, 10, 98, 10, 99, 10]
      = [97] :: allTokens SplitKind.crlf [98, 10, 99, 10] := by
    have h := allTokens_cons SplitKind.crlf [97] [98, 10, 99, 10] (by decide)
    rw [show SplitKind.crlf.strip [97] = [97] from by decide] at h
    exact h
  have h2 : allTokens SplitKind.crlf [98, 10, 99, 10]
      = [98] :: allTokens SplitKind.crlf [99, 10] := by
    have h := allTokens_cons SplitKind.crlf [98] [99, 10] (by decide)
    rw [show SplitKind.crlf.strip [98] = [98] from by decide] at h
    exact h
  have h3 : allTokens SplitKind.crlf [99, 10]
      = [99] :: allTokens SplitKind.crlf [] := by
    have h := allTokens_cons SplitKind.crlf [99] [] (by decide)
    rw [show SplitKind.crlf.strip [99] = [99] from by decide] at h
    exact h
  have htok : allTokens SplitKind.crlf [97, 10, 98, 10, 99, 10] = [[97], [98], [99]] := by
    rw [h1, h2, h3, allTokens_nil]
  have h : readAll (newLineReader false [97, 10, 98, 10, 99, 10]) = .ok [[97], [98], [99]] := by
    rw [show newLineReader false [97, 10, 98, 10, 99, 10] =
          (⟨SplitKind.crlf, [97, 10, 98, 10, 99, 10], none⟩ : LineReaderState) from rfl]
    rw [readAll_small SplitKind.crlf _ (by norm_num [maxLineSize]), htok]
  have := readLastNLinesForward_correct false 2 [97, 10, 98, 10, 99, 10]
    [[97], [98], [99]] (by norm_num) h
  simpa using this

/-- **C7**: with a configured PID (`pid > 0`) whose process is not alive,
both follow loops return success (`nil` error) immediately: the liveness
check precedes the per-tick stat/read work, so no pending tick is
processed and no cancellation is needed. -/
theorem follow_pid_exit (pid : Int) (alive : Int → Bool)
    (hpid : 0 < pid) (hdead : alive pid = false) :
    (∀ zt pos ticks, followByDescriptor pid alive zt pos ticks = .ok []) ∧
    (∀ followName maxU zt st ticks,
      followByNameLoop pid alive followName maxU zt st ticks = .ok []) := by
  constructor
  · intro zt pos ticks
    cases ticks <;> simp [followByDescriptor, hpid, hdead]
  · intro followName maxU zt st ticks
    cases ticks <;> simp [followByNameLoop, hpid, hdead]

theorem follow_pid_exit_witness :
    followByDescriptor 7 (fun _ => false) false 0 [[97, 10]] = .ok [] ∧
    followByNameLoop 7 (fun _ => false) true 0 false ⟨0, 0, none, 0⟩
      [⟨some (1, 2), none, some [97, 10]⟩] = .ok [] := by
  have h := follow_pid_exit 7 (fun _ => false) (by norm_num) rfl
  exact ⟨h.1 false 0 [[97, 10]], h.2 true 0 false ⟨0, 0, none, 0⟩
    [⟨some (1, 2), none, some [97, 10]⟩]⟩

/-- **C9**: `Watch` fails when the initial stat fails; a tick emits an
event iff the observed size differs from the last observed size, the
event carries the new size with `Truncated` true iff the size decreased,
and a tick observing an unchanged size emits nothing. -/
theorem Watch_spec :
    (∀ ticks, Watch none ticks = .error "accessing path") ∧
    (∀ lastSize size : Int,
      ((watchTick lastSize (some size)).1 ≠ none ↔ size ≠ lastSize) ∧
      (∀ ev, (watchTick lastSize (some size)).1 = some ev →
        ev.size = size ∧ (ev.truncated = true ↔ size < lastSize)) ∧
      (size = lastSize → watchTick lastSize (some size) = (none, lastSize))) := by
  refine ⟨fun ticks => rfl, fun lastSize size => ⟨?_, ?_, ?_⟩⟩
  · by_cases h : size = lastSize <;> simp [watchTick, h]
  · intro ev hev
    by_cases h : size = lastSize
    · simp [watchTick, h] at hev
    · simp [watchTick, h] at hev
      rw [← hev]
      simp
  · intro h
    simp [watchTick, h]

theorem Watch_spec_witness :
    Watch none [some 3] = .error "accessing path" ∧
    (Event.size ⟨3, true⟩ = 3 ∧ (Event.truncated ⟨3, true⟩ = true ↔ (3 : Int) < 5)) ∧
    watchTick 3 (some 3) = (none, 3) := by
  refine ⟨(Watch_spec.1 [some 3]), (Watch_spec.2 5 3).2.1 ⟨3, true⟩ (by decide),
    (Watch_spec.2 3 3).2.2 rfl⟩

theorem ReadLine_none (k : SplitKind) (data : List Nat) (adv : Nat)
    (hrun : k.run true data = (adv, none)) :
    ReadLine ⟨k, data, none⟩ = (([], some RErr.eof), ⟨k, data, some RErr.eof⟩) := by
  rw [ReadLine]
  simp only []
  rw [hrun]

theorem ReadLine_err_state (st : LineReaderState) (e : RErr)
    (h : (ReadLine st).1.2 = some e) : (ReadLine st).2.err = some e := by
  obtain ⟨k, data, err⟩ := st
  rcases err with _ | e'
  · rcases hrun : k.run true data with ⟨adv, otok⟩
    rcases otok with _ | tok
    · rw [ReadLine_none k data adv hrun] at h ⊢
      simp at h
      subst h
      rfl
    · by_cases hle : scanNeed k data ≤ maxLineSize
      · rw [ReadLine_ok k data adv tok hrun hle] at h
        simp at h
      · rw [ReadLine_tooLong k data adv tok hrun (Nat.not_le.mp hle)] at h ⊢
        simp at h
        subst h
        rfl
  · rw [ReadLine_err ⟨k, data, some e'⟩ e' rfl] at h ⊢
    simp at h
    subst h
    rfl

/-- The reader state reached after `m` further `ReadLine` calls. -/
def afterReads (st : LineReaderState) : Nat → LineReaderState
  | 0 => st
  | m + 1 => afterReads (ReadLine st).2 m

/-- **C10**: once `ReadLine` has returned an error (including `io.EOF`),
every subsequent call returns the empty string together with that same
error and leaves the reader state unchanged: the reader never yields
further lines. -/
theorem ReadLine_sticky (st : LineReaderState) (e : RErr)
    (h : (ReadLine st).1.2 = some e) :
    ∀ m, ReadLine (afterReads (ReadLine st).2 m) =
      (([], some e), afterReads (ReadLine st).2 m) := by
  have herr : (ReadLine st).2.err = some e := ReadLine_err_state st e h
  have hfix : ∀ (m : Nat) (st' : LineReaderState), st'.err = some e →
      afterReads st' m = st' := by
    intro m
    induction m with
    | zero => intro st' _; rfl
    | succ m ih =>
      intro st' h'
      show afterReads (ReadLine st').2 m = st'
      rw [ReadLine_err st' e h']
      exact ih st' h'
  intro m
  rw [hfix m _ herr]
  exact ReadLine_err _ e herr

theorem ReadLine_sticky_witness :
    ReadLine (afterReads (ReadLine ⟨SplitKind.crlf, [], none⟩).2 2) =
      (([], some RErr.eof), afterReads (ReadLine ⟨SplitKind.crlf, [], none⟩).2 2) :=
  ReadLine_sticky ⟨SplitKind.crlf, [], none⟩ RErr.eof (by rw [ReadLine_nil]) 2

/-- **C6**: in by-name follow mode, on a tick whose stat succeeds: when
the observed identity differs from the last known identity, the position
and last-known size are reset to 0 and the new identity is adopted, so
the tick's read (or, when nothing is readable yet, the next read) starts
at offset 0 of the new file; and when, under an unchanged identity, the
observed size is smaller than the last-known size, the position is reset
to 0 before the next read. -/
theorem unchangedTick_pos_zero (f : Bool) (m : Int) (st : FollowState)
    (re : Option (Nat × Int)) (h : st.lastPos = 0) :
    (unchangedTick f m st re).lastPos = 0 := by
  rw [unchangedTick.eq_def]
  by_cases hth : f = true ∧ m > 0 ∧ st.unchangedCount + 1 ≥ m
  · rw [if_pos hth]
    rcases re with _ | ⟨i2, s2⟩
    · exact h
    · dsimp only
      by_cases hid : st.lastFileInfo ≠ none ∧ st.lastFileInfo ≠ some i2
      · rw [if_pos hid]
      · rw [if_neg hid]; exact h
  · rw [if_neg hth]; exact h

theorem unchangedTick_keep (f : Bool) (m : Int) (st : FollowState) (ident : Nat)
    (re : Option (Nat × Int)) (hid : st.lastFileInfo = some ident)
    (hre : re = none ∨ ∃ s2, re = some (ident, s2)) :
    (unchangedTick f m st re).lastPos = st.lastPos ∧
    (unchangedTick f m st re).lastSize = st.lastSize ∧
    (unchangedTick f m st re).lastFileInfo = some ident := by
  rw [unchangedTick.eq_def]
  by_cases hth : f = true ∧ m > 0 ∧ st.unchangedCount + 1 ≥ m
  · rw [if_pos hth]
    rcases hre with hre | ⟨s2, hre⟩ <;> subst hre
    · exact ⟨rfl, rfl, hid⟩
    · dsimp only
      rw [if_neg (by rw [hid]; simp)]
      exact ⟨rfl, rfl, hid⟩
  · rw [if_neg hth]
    exact ⟨rfl, rfl, hid⟩

theorem followTick_resets :
    (∀ (maxU : Int) (zt : Bool) (st : FollowState) (ident oldId : Nat) (size : Int)
        (restat : Option (Nat × Int)) (file : Option (List Nat)),
      st.lastFileInfo = some oldId → oldId ≠ ident → 0 ≤ size →
      (restat = none ∨ ∃ s2, restat = some (ident, s2)) →
      ∀ r, r = followTick true maxU zt st ⟨some (ident, size), restat, file⟩ →
        r.state.lastFileInfo = some ident ∧
        (r.readFrom = none → r.state.lastPos = 0 ∧ r.state.lastSize = 0) ∧
        (∀ p, r.readFrom = some p → p = 0 ∧ r.state.lastSize = size)) ∧
    (∀ (followName : Bool) (maxU : Int) (zt : Bool) (st : FollowState) (ident : Nat)
        (size : Int) (restat : Option (Nat × Int)) (file : Option (List Nat)),
      st.lastFileInfo = some ident → size < st.lastSize →
      ∀ r, r = followTick followName maxU zt st ⟨some (ident, size), restat, file⟩ →
        (r.readFrom = none → r.state.lastPos = 0) ∧
        (∀ p, r.readFrom = some p → p = 0)) := by
  constructor
  · intro maxU zt st ident oldId size restat file hold hne hsz hre r hr
    have hrot : rotationCheck true st ident = ⟨0, 0, some ident, 0⟩ := by
      rw [rotationCheck, if_pos ⟨rfl, by rw [hold]; simp, by rw [hold]; simp [hne]⟩]
    have htr : truncationCheck (⟨0, 0, some ident, 0⟩ : FollowState) size =
        ⟨0, 0, some ident, 0⟩ := by
      rw [truncationCheck, if_neg (by simp; omega)]
    rw [followTick] at hr
    simp only [hrot, htr] at hr
    by_cases hsz0 : size = 0
    · rw [if_pos (by simp [hsz0])] at hr
      subst hr
      have hk := unchangedTick_keep true maxU ⟨0, 0, some ident, 0⟩ ident restat rfl hre
      refine ⟨hk.2.2, fun _ => ⟨hk.1, hk.2.1⟩, ?_⟩
      intro p hp
      simp at hp
    · rw [if_neg (by simp [hsz0])] at hr
      subst hr
      rcases file with _ | content
      · exact ⟨rfl, fun _ => ⟨rfl, rfl⟩, fun p hp => by simp [readPhase] at hp⟩
      · refine ⟨rfl, fun hno => by simp [readPhase] at hno, ?_⟩
        intro p hp
        simp only [readPhase, Option.some.injEq] at hp
        exact ⟨hp.symm, rfl⟩
  · intro followName maxU zt st ident size restat file hold hsz r hr
    have hrot : rotationCheck followName st ident = st := by
      rw [rotationCheck, if_neg (by rw [hold]; simp)]
    have htr : truncationCheck st size =
        ⟨0, size, st.lastFileInfo, st.unchangedCount⟩ := by
      rw [truncationCheck, if_pos hsz]
    rw [followTick] at hr
    simp only [hrot, htr] at hr
    by_cases hsz0 : size = 0
    · rw [if_pos (by simp [hsz0])] at hr
      subst hr
      refine ⟨fun _ => ?_, fun p hp => by simp at hp⟩
      exact unchangedTick_pos_zero followName maxU _ restat rfl
    · rw [if_neg (by simp [hsz0])] at hr
      subst hr
      rcases file with _ | content
      · exact ⟨fun _ => rfl, fun p hp => by simp [readPhase] at hp⟩
      · refine ⟨fun hno => by simp [readPhase] at hno, ?_⟩
        intro p hp
        simp only [readPhase, Option.some.injEq] at hp
        exact hp.symm

theorem followTick_resets_witness :
    (followTick true 0 false ⟨5, 7, some 1, 0⟩
        ⟨some (2, 3), none, some [97, 10]⟩).state.lastFileInfo = some 2 ∧
    (∀ p, (followTick false 0 false ⟨4, 9, some 1, 0⟩
        ⟨some (1, 3), none, none⟩).readFrom = some p → p = 0) := by
  refine ⟨(followTick_resets.1 0 false ⟨5, 7, some 1, 0⟩ 2 1 3 none (some [97, 10])
      rfl (by decide) (by norm_num) (Or.inl rfl) _ rfl).1,
    (followTick_resets.2 false 0 false ⟨4, 9, some 1, 0⟩ 1 3 none none
      rfl (by norm_num) _ rfl).2⟩

theorem writeAt_length : ∀ (bs buf : List Nat) (p : Nat),
    (writeAt buf p bs).length = buf.length := by
  intro bs
  induction bs with
  | nil => intro buf p; rfl
  | cons b bs ih =>
    intro buf p
    show (writeAt (buf.set p b) (p + 1) bs).length = buf.length
    rw [ih, List.length_set]

theorem ringInv_writeAt {n : Nat} (hn : 1 ≤ n) :
    ∀ (bs all buf : List Nat), RingInv 0 n all buf →
      all.length % n + bs.length ≤ n →
      RingInv 0 n (all ++ bs) (writeAt buf (all.length % n) bs) := by
  intro bs
  induction bs with
  | nil =>
    intro all buf h _
    simpa [writeAt] using h
  | cons b bs ih =>
    intro all buf h hle
    have h1 : RingInv 0 n (all ++ [b]) (buf.set (all.length % n) b) :=
      ringInv_set hn h
    rcases bs with _ | ⟨b2, bs2⟩
    · simpa [writeAt] using h1
    · have h2 : all.length % n + 1 < n := by
        simp only [List.length_cons] at hle
        omega
      have hmod : (all ++ [b]).length % n = all.length % n + 1 := by
        have h3 : (1 : Nat) % n = 1 := Nat.mod_eq_of_lt (by omega)
        rw [List.length_append, List.length_singleton, Nat.add_mod, h3,
          Nat.mod_eq_of_lt h2]
      have ih' := ih (all ++ [b]) (buf.set (all.length % n) b) h1 (by
        rw [hmod]
        simp only [List.length_cons] at hle ⊢
        omega)
      rw [show writeAt buf (all.length % n) (b :: b2 :: bs2) =
          writeAt (buf.set (all.length % n) b) (all.length % n + 1) (b2 :: bs2) from rfl]
      rw [← hmod]
      simpa [List.append_assoc] using ih'

theorem tailBytesLoop_inv {n : Nat} (hn : 1 ≤ n) (sched : Nat → Nat) :
    ∀ (len : Nat) (input : List Nat), input.length = len →
      ∀ (all buf : List Nat) (step : Nat), RingInv 0 n all buf →
      (tailBytesLoop n sched step buf all.length input).2 = all.length + input.length ∧
      RingInv 0 n (all ++ input) (tailBytesLoop n sched step buf all.length input).1 := by
  intro len
  induction len using Nat.strong_induction_on with
  | _ len ih =>
  intro input hlen all buf step hinv
  by_cases hni : input = []
  · subst hni
    rw [tailBytesLoop_nil]
    simpa using hinv
  · have hmodlt : all.length % n < n := Nat.mod_lt _ hn
    have hslice : 1 ≤ min n (all.length % n + chunkSize) - all.length % n := by
      have hc : 0 < chunkSize := by norm_num [chunkSize]
      omega
    have hinlen : 1 ≤ input.length := List.length_pos.mpr hni
    have hrn : 1 ≤ tailReadN n sched step all.length input := by
      rw [tailReadN]
      have hs1 : 1 ≤ max (sched step) 1 := le_max_right _ _
      omega
    have hz : tailReadN n sched step all.length input ≠ 0 := by omega
    set rn := tailReadN n sched step all.length input with hrdef
    have hrn_le_slice : rn ≤ min n (all.length % n + chunkSize) - all.length % n := by
      rw [hrdef, tailReadN]
      omega
    have hrn_le_len : rn ≤ input.length := by
      rw [hrdef, tailReadN]
      omega
    have hfit : all.length % n + rn ≤ n := by omega
    have htake : (input.take rn).length = rn := by
      rw [List.length_take]
      omega
    have hinv2 := ringInv_writeAt hn (input.take rn) all buf hinv (by rw [htake]; exact hfit)
    have hlen2 : (all ++ input.take rn).length = all.length + rn := by
      rw [List.length_append, htake]
    rw [tailBytesLoop_step n sched step buf all.length input hni hz]
    have hdroplen : (input.drop rn).length < len := by
      rw [List.length_drop]
      omega
    have hrec := ih (input.drop rn).length (by omega) (input.drop rn) rfl
      (all ++ input.take rn) (writeAt buf (all.length % n) (input.take rn)) (step + 1) hinv2
    rw [hlen2] at hrec
    refine ⟨?_, ?_⟩
    · rw [← hrdef, hrec.1]
      simp only [List.length_drop]
      omega
    · have := hrec.2
      rw [List.append_assoc, List.take_append_drop] at this
      rw [← hrdef]
      exact this

theorem ringRead_rotate {α : Type} (d0 : α) {n : Nat} {all ring : List α} (hn : 1 ≤ n)
    (h : RingInv d0 n all ring) (hgt : n < all.length) :
    ring.drop (all.length % n) ++ ring.take (all.length % n) = all.drop (all.length - n) := by
  obtain ⟨hlen, hinv⟩ := h
  have hs : all.length % n < n := Nat.mod_lt _ hn
  apply List.ext_getElem
  · simp [hlen]
    omega
  · intro i h1 h2
    have hi : i < n := by
      simp [hlen] at h1
      omega
    have hv := hinv i hi
    rw [if_neg (by omega)] at hv
    rw [List.getElem_drop]
    rw [← List.getD_eq_getElem all d0 (show all.length - n + i < all.length by omega)]
    have hidxeq : all.length + i - n = all.length - n + i := by omega
    rw [hidxeq] at hv
    by_cases hcase : i < n - all.length % n
    · rw [List.getElem_append_left (by simp [hlen]; omega), List.getElem_drop]
      rw [← List.getD_eq_getElem ring d0
        (show all.length % n + i < ring.length by rw [hlen]; omega)]
      have harg2 : (all.length + i) % n = all.length % n + i := by
        rw [← Nat.mod_add_mod]
        exact Nat.mod_eq_of_lt (by omega)
      rw [← harg2, hv]
    · rw [List.getElem_append_right (by simp [hlen]; omega), List.getElem_take]
      have hixeq : i - (List.drop (all.length % n) ring).length =
          all.length % n + i - n := by
        simp [hlen]
        omega
      have hix : i - (List.drop (all.length % n) ring).length < ring.length := by
        rw [hixeq, hlen]
        omega
      rw [← List.getD_eq_getElem ring d0 hix, hixeq]
      have harg3 : (all.length + i) % n = all.length % n + i - n := by
        rw [← Nat.mod_add_mod, Nat.mod_eq_sub_mod (by omega), Nat.mod_eq_of_lt (by omega)]
      rw [← harg3, hv]

/-- **C3**: for every byte input and `N ≥ 1`, the non-seekable byte mode
emits exactly the final `min N size` bytes in order (via the capacity-`N`
circular buffer, reassembled across wraparound), and `from byte N`
(1-indexed) emits exactly the bytes from offset `N-1` to the end —
whatever sizes the reader's individual `Read` calls return. -/
theorem tailReaderBytes_spec (bytes : Int) (sched : Nat → Nat) (input : List Nat)
    (hb : 1 ≤ bytes) :
    tailReaderBytes false bytes sched input = input.drop (input.length - bytes.toNat) ∧
    tailReaderBytes true bytes sched input = input.drop (bytes.toNat - 1) := by
  constructor
  · rw [tailReaderBytes]
    simp only [Bool.false_eq_true, if_false]
    have hn : 1 ≤ bytes.toNat := by omega
    have hloop := tailBytesLoop_inv hn sched input.length input rfl [] 
      (List.replicate bytes.toNat 0) 0 (ringInv_nil 0 bytes.toNat)
    simp only [List.length_nil, List.nil_append, Nat.zero_add] at hloop
    set r := tailBytesLoop bytes.toNat sched 0 (List.replicate bytes.toNat 0) 0 input
      with hrdef
    by_cases h0 : r.2 = 0
    · rw [if_pos h0]
      have : input.length = 0 := by rw [← hloop.1]; exact h0
      rw [List.drop_eq_nil_of_le (by omega)]
    · rw [if_neg h0]
      by_cases hle : r.2 ≤ bytes.toNat
      · rw [if_pos hle]
        have heq := ringRead_eq hn hloop.2
        rw [ringRead, if_pos (by rw [← hloop.1]; exact hle)] at heq
        rw [show r.2 = input.length from hloop.1]
        exact heq
      · rw [if_neg hle]
        have hgt : bytes.toNat < input.length := by rw [← hloop.1]; omega
        have heq := ringRead_rotate 0 hn hloop.2 hgt
        rw [show r.2 = input.length from hloop.1]
        exact heq
  · rw [tailReaderBytes]
    simp only [if_true]
    congr 1
    omega

theorem tailReaderBytes_spec_witness :
    tailReaderBytes false 2 (fun _ => 3) [1, 2, 3, 4, 5] = [4, 5] ∧
    tailReaderBytes true 2 (fun _ => 3) [1, 2, 3, 4, 5] = [2, 3, 4, 5] := by
  have h := tailReaderBytes_spec 2 (fun _ => 3) [1, 2, 3, 4, 5] (by norm_num)
  rw [h.1, h.2]
  constructor <;> decide

/-! ## Shared structural lemmas on splitting -/

theorem findDelim_none_iff {d : Nat} : ∀ {l : List Nat}, findDelim d l = none ↔ d ∉ l := by
  intro l
  induction l with
  | nil => simp [findDelim]
  | cons b rest ih =>
    by_cases hb : b = d
    · simp [findDelim, hb]
    · simp only [findDelim, if_neg hb, List.mem_cons]
      rw [Option.map_eq_none']
      constructor
      · intro h hor
        rcases hor with hd | hd
        · exact hb hd.symm
        · exact (ih.mp h) hd
      · intro h
        exact ih.mpr (fun hd => h (Or.inr hd))

theorem findDelim_decomp {d : Nat} : ∀ {l : List Nat} {i : Nat}, findDelim d l = some i →
    d ∉ l.take i ∧ l.take i ++ d :: l.drop (i + 1) = l := by
  intro l
  induction l with
  | nil => intro i h; simp [findDelim] at h
  | cons b rest ih =>
    intro i h
    by_cases hb : b = d
    · rw [findDelim, if_pos hb] at h
      simp only [Option.some.injEq] at h
      subst h
      subst hb
      simp
    · rw [findDelim, if_neg hb] at h
      rcases hf : findDelim d rest with _ | j
      · rw [hf] at h; simp at h
      · rw [hf] at h
        simp only [Option.map_some', Option.some.injEq] at h
        subst h
        have := ih hf
        refine ⟨?_, ?_⟩
        · rw [List.take_succ_cons]
          simp only [List.mem_cons, not_or]
          exact ⟨fun hd => hb hd.symm, this.1⟩
        · rw [List.take_succ_cons, List.drop_succ_cons, List.cons_append, this.2]

theorem findDelim_append_left {d : Nat} : ∀ {l : List Nat} {i : Nat} (rest : List Nat),
    findDelim d l = some i → findDelim d (l ++ rest) = some i := by
  intro l
  induction l with
  | nil => intro i rest h; simp [findDelim] at h
  | cons b t ih =>
    intro i rest h
    rw [findDelim] at h
    rw [List.cons_append, findDelim]
    by_cases hb : b = d
    · rw [if_pos hb] at h ⊢
      exact h
    · rw [if_neg hb] at h ⊢
      rcases hf : findDelim d t with _ | j
      · rw [hf] at h; simp at h
      · rw [hf] at h
        rw [ih rest hf]
        exact h

theorem stripCR_of_not_mem {l : List Nat} (h : 13 ∉ l) : stripCR l = l := by
  rw [stripCR, if_neg]
  intro hl
  exact h (List.getElem?_mem (List.getLast?_eq_getElem? l ▸ hl))

theorem stripCR_append13 {l : List Nat} (h : l.getLast? ≠ some 13) :
    stripCR (l ++ [13]) = stripCR l := by
  rw [stripCR, if_pos (by simp), List.dropLast_concat, stripCR, if_neg h]

/-! ## The CRLF/LF mixing transformation (C5) -/

/-- A variant of `content` in which some LF line endings are replaced by
CRLF: at every LF that ends a line as a bare LF (an LF at the start of
the stream or one not preceded by CR — an LF preceded by CR is part of a
CRLF ending already), the next entry of `mask` decides whether a CR is
inserted before it. -/
def crlfVariant : List Bool → List Nat → List Nat
  | _, [] => []
  | mask, b :: rest =>
    if b = 10 then
      match mask with
      | [] => 10 :: crlfVariant [] rest
      | m :: ms => (if m then [13, 10] else [10]) ++ crlfVariant ms rest
    else if b = 13 then
      match rest with
      | [] => [13]
      | r :: rest2 =>
        if r = 10 then 13 :: 10 :: crlfVariant mask rest2
        else 13 :: crlfVariant mask (r :: rest2)
    else b :: crlfVariant mask rest

theorem crlfVariant_nil (mask : List Bool) : crlfVariant mask [] = [] := by
  rw [crlfVariant.eq_def]

theorem crlfVariant_lf_nilmask (rest : List Nat) :
    crlfVariant [] (10 :: rest) = 10 :: crlfVariant [] rest := by
  rw [crlfVariant.eq_def]
  simp

theorem crlfVariant_lf (m : Bool) (ms : List Bool) (rest : List Nat) :
    crlfVariant (m :: ms) (10 :: rest) =
      (if m then [13, 10] else [10]) ++ crlfVariant ms rest := by
  rw [crlfVariant.eq_def]
  simp

theorem crlfVariant_cr_lf (mask : List Bool) (rest2 : List Nat) :
    crlfVariant mask (13 :: 10 :: rest2) = 13 :: 10 :: crlfVariant mask rest2 := by
  rw [crlfVariant.eq_def]
  simp

theorem crlfVariant_cr_single (mask : List Bool) : crlfVariant mask [13] = [13] := by
  rw [crlfVariant.eq_def]
  simp

theorem crlfVariant_cr_other (mask : List Bool) (r : Nat) (rest2 : List Nat) (h : r ≠ 10) :
    crlfVariant mask (13 :: r :: rest2) = 13 :: crlfVariant mask (r :: rest2) := by
  rw [crlfVariant.eq_def]
  simp [h]

theorem crlfVariant_other (mask : List Bool) (b : Nat) (rest : List Nat)
    (h10 : b ≠ 10) (h13 : b ≠ 13) :
    crlfVariant mask (b :: rest) = b :: crlfVariant mask rest := by
  rw [crlfVariant.eq_def]
  simp [h10, h13]

theorem crlfVariant_no_lf (mask : List Bool) : ∀ (l : List Nat), 10 ∉ l →
    crlfVariant mask l = l := by
  intro l
  induction l with
  | nil => intro _; rw [crlfVariant_nil]
  | cons b rest ih =>
    intro h
    have hb : b ≠ 10 := by
      intro hb
      exact h (by rw [hb]; exact List.mem_cons_self _ _)
    have ht : 10 ∉ rest := fun hm => h (List.mem_cons_of_mem _ hm)
    by_cases h13 : b = 13
    · subst h13
      rcases rest with _ | ⟨r, rest2⟩
      · exact crlfVariant_cr_single mask
      · have hr : r ≠ 10 := by
          intro hr
          exact ht (by rw [hr]; exact List.mem_cons_self _ _)
        rw [crlfVariant_cr_other mask r rest2 hr, ih ht]
    · rw [crlfVariant_other mask b rest hb h13, ih ht]

theorem crlfVariant_boundary (mask : List Bool) : ∀ (l rest : List Nat), 10 ∉ l →
    crlfVariant mask (l ++ 10 :: rest) =
      if l.getLast? = some 13 then l ++ 10 :: crlfVariant mask rest
      else
        match mask with
        | [] => l ++ 10 :: crlfVariant [] rest
        | m :: ms => l ++ (if m then [13, 10] else [10]) ++ crlfVariant ms rest := by
  intro l
  induction l generalizing mask with
  | nil =>
    intro rest _
    rw [if_neg (by simp)]
    simp only [List.nil_append]
    rcases mask with _ | ⟨m, ms⟩
    · rw [crlfVariant_lf_nilmask]
    · rw [crlfVariant_lf]
  | cons b t ih =>
    intro rest h
    have hb : b ≠ 10 := by
      intro hb
      exact h (by rw [hb]; exact List.mem_cons_self _ _)
    have ht : 10 ∉ t := fun hm => h (List.mem_cons_of_mem _ hm)
    by_cases h13 : b = 13
    · subst h13
      rcases t with _ | ⟨c, t2⟩
      · simp only [List.cons_append, List.nil_append]
        rw [crlfVariant_cr_lf, if_pos (by simp)]
      · have hc : c ≠ 10 := by
          intro hc
          exact ht (by rw [hc]; exact List.mem_cons_self _ _)
        simp only [List.cons_append]
        rw [crlfVariant_cr_other mask c (t2 ++ 10 :: rest) hc]
        rw [show c :: (t2 ++ 10 :: rest) = (c :: t2) ++ 10 :: rest from rfl]
        rw [ih mask rest ht]
        rw [List.getLast?_cons_cons]
        by_cases hl : (c :: t2).getLast? = some 13
        · simp only [if_pos hl]
          simp
        · simp only [if_neg hl]
          rcases mask with _ | ⟨m, ms⟩ <;> simp
    · simp only [List.cons_append]
      rw [crlfVariant_other mask b (t ++ 10 :: rest) hb h13, ih mask rest ht]
      rcases t with _ | ⟨c, t2⟩
      · have hc1 : ¬ (([] : List Nat).getLast? = some 13) := by simp
        have hc2 : ¬ ((b :: ([] : List Nat)).getLast? = some 13) := by
          simpa using h13
        rw [if_neg hc1, if_neg hc2]
        rcases mask with _ | ⟨m, ms⟩ <;> simp
      · rw [List.getLast?_cons_cons]
        by_cases hl : (c :: t2).getLast? = some 13
        · simp [if_pos hl]
        · simp only [if_neg hl]
          rcases mask with _ | ⟨m, ms⟩ <;> simp

/-- **C5**: mixing CRLF and LF endings does not change the split lines:
replacing any set of bare-LF line endings of an input by CRLF yields
identical line contents under the newline splitter, because each line has
the LF delimiter stripped and a trailing CR immediately before it is
stripped as well (also on the final unterminated line). -/
theorem scanLinesWithCRLF_equiv :
    (∀ (mask : List Bool) (content : List Nat),
      allTokens SplitKind.crlf (crlfVariant mask content) =
        allTokens SplitKind.crlf content) ∧
    (∀ (l rest : List Nat), 10 ∉ l →
      allTokens SplitKind.crlf (l ++ 10 :: rest) =
        stripCR l :: allTokens SplitKind.crlf rest) := by
  have hcons : ∀ (l rest : List Nat), 10 ∉ l →
      allTokens SplitKind.crlf (l ++ 10 :: rest) =
        stripCR l :: allTokens SplitKind.crlf rest := by
    intro l rest h
    have := allTokens_cons SplitKind.crlf l rest (by
      simpa [SplitKind.delim] using h)
    simpa [SplitKind.delim, SplitKind.strip] using this
  refine ⟨?_, hcons⟩
  have main : ∀ (len : Nat) (content : List Nat), content.length = len →
      ∀ (mask : List Bool),
      allTokens SplitKind.crlf (crlfVariant mask content) =
        allTokens SplitKind.crlf content := by
    intro len
    induction len using Nat.strong_induction_on with
    | _ len ih =>
    intro content hlen mask
    rcases hf : findDelim 10 content with _ | i
    · have hno : 10 ∉ content := findDelim_none_iff.mp hf
      rw [crlfVariant_no_lf mask content hno]
    · obtain ⟨hmem, hdec⟩ := findDelim_decomp hf
      set l := content.take i with hldef
      set rest := content.drop (i + 1) with hrdef
      have hlenl : l.length = i := by
        rw [hldef, List.length_take]
        have := findDelim_lt hf
        omega
      have hlrest : rest.length < len := by
        rw [hrdef, List.length_drop]
        have hpos : 0 < content.length := by
          rcases content with _ | _
          · simp [findDelim] at hf
          · simp
        omega
      rw [← hdec]
      rw [crlfVariant_boundary mask l rest hmem]
      by_cases hl13 : l.getLast? = some 13
      · rw [if_pos hl13]
        rw [hcons l (crlfVariant mask rest) hmem, hcons l rest hmem]
        rw [ih rest.length (by omega) rest rfl mask]
      · rw [if_neg hl13]
        rcases mask with _ | ⟨m, ms⟩
        · rw [hcons l (crlfVariant [] rest) hmem, hcons l rest hmem]
          rw [ih rest.length (by omega) rest rfl []]
        · rcases m with _ | _
          · simp only [Bool.false_eq_true, if_false]
            rw [List.append_assoc, List.singleton_append]
            rw [hcons l (crlfVariant ms rest) hmem, hcons l rest hmem]
            rw [ih rest.length (by omega) rest rfl ms]
          · simp only [if_true]
            rw [show l ++ [13, 10] ++ crlfVariant ms rest =
                (l ++ [13]) ++ 10 :: crlfVariant ms rest by simp]
            rw [hcons (l ++ [13]) (crlfVariant ms rest) (by
              intro hx
              rcases List.mem_append.mp hx with h1 | h1
              · exact hmem h1
              · exact absurd h1 (by decide))]
            rw [hcons l rest hmem]
            rw [ih rest.length (by omega) rest rfl ms]
            rw [stripCR_append13 hl13]
  intro mask content
  exact main content.length content rfl mask

theorem scanLinesWithCRLF_equiv_witness :
    allTokens SplitKind.crlf (crlfVariant [true] [97, 10]) =
      allTokens SplitKind.crlf [97, 10] ∧
    allTokens SplitKind.crlf ([97] ++ 10 :: []) =
      stripCR [97] :: allTokens SplitKind.crlf [] :=
  ⟨scanLinesWithCRLF_equiv.1 [true] [97, 10],
    scanLinesWithCRLF_equiv.2 [97] [] (by decide)⟩

/-! ## Maximum line length (C8) -/

theorem SplitKind.strip_length_le (k : SplitKind) (l : List Nat) :
    (k.strip l).length ≤ l.length := by
  cases k
  · show (stripCR l).length ≤ l.length
    rw [stripCR]
    by_cases h : l.getLast? = some 13
    · rw [if_pos h, List.length_dropLast]
      omega
    · rw [if_neg h]
  · exact le_refl _

theorem SplitKind.run_token_le (k : SplitKind) (data : List Nat) (adv : Nat)
    (tok : List Nat) (h : k.run true data = (adv, some tok)) : tok.length ≤ adv := by
  rcases hd : data with _ | ⟨b, rest⟩
  · rw [hd, SplitKind.run_nil] at h
    simp at h
  · rw [hd] at h
    rw [SplitKind.run_eq k (b :: rest) (by simp)] at h
    rcases hf : findDelim k.delim (b :: rest) with _ | i
    · rw [hf] at h
      simp only [Prod.mk.injEq, Option.some.injEq] at h
      rw [← h.1, ← h.2]
      exact SplitKind.strip_length_le k _
    · rw [hf] at h
      simp only [Prod.mk.injEq, Option.some.injEq] at h
      rw [← h.1, ← h.2]
      calc (k.strip ((b :: rest).take i)).length ≤ ((b :: rest).take i).length :=
            SplitKind.strip_length_le k _
        _ ≤ i := by rw [List.length_take]; omega
        _ ≤ i + 1 := by omega

theorem tokens_length_le (k : SplitKind) :
    ∀ (data : List Nat), TokensOk k data →
      ∀ t ∈ allTokens k data, t.length ≤ maxLineSize := by
  have main : ∀ (len : Nat) (data : List Nat), data.length = len → TokensOk k data →
      ∀ t ∈ allTokens k data, t.length ≤ maxLineSize := by
    intro len
    induction len using Nat.strong_induction_on with
    | _ len ih =>
    intro data hlen hok t ht
    by_cases hne : data = []
    · rw [hne, allTokens_nil] at ht
      simp at ht
    · have hprog := SplitKind.run_progress k data hne
      rcases hrun : k.run true data with ⟨adv, otok⟩
      rcases otok with _ | tok'
      · rw [hrun] at hprog; simp at hprog
      · rw [allTokens_step k data adv tok' hne hrun] at ht
        rw [TokensOk_step k data hne, hrun] at hok
        simp only [List.mem_cons] at ht
        rcases ht with ht | ht
        · rw [ht]
          have hadvs := run_adv_le_scanNeed k data hne
          rw [hrun] at hadvs
          exact le_trans (SplitKind.run_token_le k data adv tok' hrun)
            (le_trans hadvs hok.1)
        · have hlt : (data.drop adv).length < data.length := by
            rw [hrun] at hprog
            simp only [List.length_drop]
            have := List.length_pos.mpr hne
            omega
          exact ih (data.drop adv).length (by omega) (data.drop adv) rfl hok.2 t ht
  intro data
  exact main data.length data rfl

/-- **C8** (amended): `NewLineReader` configures a 1 MiB (`maxLineSize`)
scanner buffer, and the scanner must hold a line together with its
delimiter — or, for the final unterminated line, the whole remainder plus
one further read to observe EOF — in that buffer, so `ReadLine` returns
intact every line of at most `maxLineSize - 1` bytes, terminated or not,
and fails with `ErrTooLong` instead of returning the line or buffering
without bound as soon as a line reaches `maxLineSize` bytes — in
particular no line longer than `maxLineSize` is ever returned. -/
theorem ReadLine_maxLineSize :
    (∀ (l rest : List Nat), 10 ∉ l → l.length + 1 ≤ maxLineSize →
      ReadLine ⟨SplitKind.crlf, l ++ 10 :: rest, none⟩ =
        ((stripCR l, none), ⟨SplitKind.crlf, rest, none⟩)) ∧
    (∀ (l rest : List Nat), 10 ∉ l → maxLineSize < l.length + 1 →
      (ReadLine ⟨SplitKind.crlf, l ++ 10 :: rest, none⟩).1.2 = some RErr.tooLong) ∧
    (∀ (l : List Nat), 10 ∉ l → l ≠ [] → l.length < maxLineSize →
      ReadLine ⟨SplitKind.crlf, l, none⟩ =
        ((stripCR l, none), ⟨SplitKind.crlf, [], none⟩)) ∧
    (∀ (l : List Nat), 10 ∉ l → maxLineSize ≤ l.length →
      (ReadLine ⟨SplitKind.crlf, l, none⟩).1.2 = some RErr.tooLong) ∧
    (∀ (st : LineReaderState) (ls : List (List Nat)), readAll st = .ok ls →
      ∀ t ∈ ls, t.length ≤ maxLineSize) := by
  have hdelim : SplitKind.crlf.delim = 10 := rfl
  have hrun : ∀ (l rest : List Nat), 10 ∉ l →
      SplitKind.crlf.run true (l ++ 10 :: rest) = (l.length + 1, some (stripCR l)) := by
    intro l rest hmem
    rw [SplitKind.run_eq _ _ (by simp), hdelim, findDelim_append l rest hmem]
    simp [List.take_left, SplitKind.strip]
  have hsn : ∀ (l rest : List Nat), 10 ∉ l →
      scanNeed SplitKind.crlf (l ++ 10 :: rest) = l.length + 1 := by
    intro l rest hmem
    exact scanNeed_found (show findDelim SplitKind.crlf.delim (l ++ 10 :: rest)
      = some l.length from findDelim_append l rest hmem)
  have hrunf : ∀ (l : List Nat), 10 ∉ l → l ≠ [] →
      SplitKind.crlf.run true l = (l.length, some (stripCR l)) := by
    intro l hmem hne
    rw [SplitKind.run_eq _ _ hne, hdelim, findDelim_of_not_mem hmem]
    rfl
  have hsnf : ∀ (l : List Nat), 10 ∉ l →
      scanNeed SplitKind.crlf l = l.length + 1 := by
    intro l hmem
    exact scanNeed_tail (show findDelim SplitKind.crlf.delim l = none
      from findDelim_of_not_mem hmem)
  refine ⟨?_, ?_, ?_, ?_, ?_⟩
  · intro l rest hmem hle
    rw [ReadLine_ok _ _ _ _ (hrun l rest hmem) (by rw [hsn l rest hmem]; exact hle)]
    congr 1
    rw [show l ++ 10 :: rest = (l ++ [10]) ++ rest by simp,
      show l.length + 1 = (l ++ [10]).length by simp, List.drop_left]
  · intro l rest hmem hgt
    rw [ReadLine_tooLong _ _ _ _ (hrun l rest hmem)
      (by rw [hsn l rest hmem]; exact hgt)]
  · intro l hmem hne hle
    rw [ReadLine_ok _ _ _ _ (hrunf l hmem hne) (by rw [hsnf l hmem]; omega)]
    congr 1
    rw [List.drop_length]
  · intro l hmem hgt
    rw [ReadLine_tooLong _ _ _ _ (hrunf l hmem (by
      intro he
      rw [he] at hgt
      norm_num [maxLineSize] at hgt)) (by rw [hsnf l hmem]; omega)]
  · intro st ls h t ht
    obtain ⟨k, data, err⟩ := st
    rcases err with _ | e
    · rw [readAll_ok_iff] at h
      rw [h.2] at ht
      exact tokens_length_le k data h.1 t ht
    · rcases e with _ | _
      · rw [readAll_eof _ (by rw [ReadLine_err _ RErr.eof rfl])] at h
        simp only [Except.ok.injEq] at h
        rw [← h] at ht
        simp at ht
      · rw [readAll_tooLong _ (by rw [ReadLine_err _ RErr.tooLong rfl])] at h
        simp at h

theorem ReadLine_maxLineSize_witness :
    ReadLine ⟨SplitKind.crlf, [97] ++ 10 :: [98], none⟩ =
      ((stripCR [97], none), ⟨SplitKind.crlf, [98], none⟩) ∧
    ReadLine ⟨SplitKind.crlf, [98], none⟩ =
      ((stripCR [98], none), ⟨SplitKind.crlf, [], none⟩) ∧
    (∀ t ∈ [[97]], List.length t ≤ maxLineSize) := by
  have h97 : allTokens SplitKind.crlf [97, 10] = [[97]] := by
    have h := allTokens_cons SplitKind.crlf [97] [] (by decide)
    rw [show SplitKind.crlf.strip [97] = [97] from by decide, allTokens_nil] at h
    exact h
  refine ⟨ReadLine_maxLineSize.1 [97] [98] (by decide) (by norm_num [maxLineSize]),
    ReadLine_maxLineSize.2.2.1 [98] (by decide) (by simp) (by norm_num [maxLineSize]),
    ReadLine_maxLineSize.2.2.2.2 ⟨SplitKind.crlf, [97, 10], none⟩ [[97]] ?_⟩
  rw [readAll_small SplitKind.crlf [97, 10] (by norm_num [maxLineSize])]
  rw [show allTokens SplitKind.crlf [97, 10] = [[97]] from h97]

/-- **C8** (counterexample to the claim as stated): the input consisting
of one newline-terminated line of exactly `maxLineSize` bytes has a
single line of length not exceeding the maximum, yet `ReadLine` fails
with `ErrTooLong` instead of returning it intact (the line plus its
delimiter does not fit in the buffer); likewise an unterminated final
line of exactly `maxLineSize` bytes fills the buffer before EOF can be
observed and fails with `ErrTooLong`. -/
theorem ReadLine_maxLineSize_cex :
    (allTokens SplitKind.crlf (List.replicate maxLineSize 97 ++ [10])).length = 1 ∧
    (∀ t ∈ allTokens SplitKind.crlf (List.replicate maxLineSize 97 ++ [10]),
      List.length t ≤ maxLineSize) ∧
    (ReadLine ⟨SplitKind.crlf, List.replicate maxLineSize 97 ++ [10], none⟩).1.2 =
      some RErr.tooLong ∧
    (ReadLine ⟨SplitKind.crlf, List.replicate maxLineSize 97, none⟩).1.2 =
      some RErr.tooLong := by
  have hmem : (10 : Nat) ∉ List.replicate maxLineSize 97 := by
    simp [List.mem_replicate]
  have h13 : (13 : Nat) ∉ List.replicate maxLineSize 97 := by
    simp [List.mem_replicate]
  have htok : allTokens SplitKind.crlf (List.replicate maxLineSize 97 ++ [10]) =
      [List.replicate maxLineSize 97] := by
    have h := allTokens_cons SplitKind.crlf (List.replicate maxLineSize 97) []
      (by rw [show SplitKind.crlf.delim = 10 from rfl]; exact hmem)
    rw [show SplitKind.crlf.strip (List.replicate maxLineSize 97) =
        stripCR (List.replicate maxLineSize 97) from rfl] at h
    rw [stripCR_of_not_mem h13, allTokens_nil] at h
    exact h
  have hrun : SplitKind.crlf.run true (List.replicate maxLineSize 97 ++ [10]) =
      (maxLineSize + 1, some (stripCR (List.replicate maxLineSize 97))) := by
    rw [SplitKind.run_eq _ _ (by simp), show SplitKind.crlf.delim = 10 from rfl,
      findDelim_append _ _ hmem]
    simp [List.take_left, SplitKind.strip]
  have hsn : scanNeed SplitKind.crlf (List.replicate maxLineSize 97 ++ [10])
      = maxLineSize + 1 := by
    rw [scanNeed_found (show findDelim SplitKind.crlf.delim
        (List.replicate maxLineSize 97 ++ [10]) = some (List.replicate maxLineSize
          97).length from findDelim_append _ _ hmem), List.length_replicate]
  have hne2 : List.replicate maxLineSize 97 ≠ [] := by
    intro he
    have hl := congrArg List.length he
    rw [List.length_replicate] at hl
    norm_num [maxLineSize] at hl
  have hrunf : SplitKind.crlf.run true (List.replicate maxLineSize 97) =
      (maxLineSize, some (stripCR (List.replicate maxLineSize 97))) := by
    rw [SplitKind.run_eq _ _ hne2, show SplitKind.crlf.delim = 10 from rfl,
      findDelim_of_not_mem hmem]
    dsimp only
    rw [List.length_replicate]
    rfl
  have hsnf : scanNeed SplitKind.crlf (List.replicate maxLineSize 97)
      = maxLineSize + 1 := by
    rw [scanNeed_tail (show findDelim SplitKind.crlf.delim
        (List.replicate maxLineSize 97) = none from findDelim_of_not_mem hmem),
      List.length_replicate]
  refine ⟨by rw [htok]; rfl, ?_, ?_, ?_⟩
  · intro t ht
    rw [htok] at ht
    simp only [List.mem_singleton] at ht
    rw [ht, List.length_replicate]
  · rw [ReadLine_tooLong _ _ _ _ hrun (by rw [hsn]; omega)]
  · rw [ReadLine_tooLong _ _ _ _ hrunf (by rw [hsnf]; omega)]

/-! ## Backward-scan specification (C2) -/

theorem cdb_none (d : Nat) (needed : Int) :
    ∀ (rc : List Nat) (found : Int) (idx : Nat),
      found + (rc.count d : Int) < needed →
      countDelimsBack d needed rc found idx = (found + (rc.count d : Int), none) := by
  intro rc
  induction rc with
  | nil =>
    intro found idx h
    simp [countDelimsBack]
  | cons b rbs ih =>
    intro found idx h
    rw [List.count_cons] at h
    simp only [countDelimsBack]
    by_cases hb : b = d
    · rw [if_pos hb]
      rw [if_pos (by simp [hb]), Nat.cast_add] at h
      rw [if_neg (by push_cast at h ⊢; omega)]
      rw [ih (found + 1) (idx - 1) (by push_cast at h ⊢; omega)]
      rw [List.count_cons, if_pos (by simp [hb])]
      congr 1
      push_cast
      omega
    · rw [if_neg hb]
      rw [if_neg (by simp [hb]), Nat.add_zero] at h
      rw [ih found (idx - 1) h]
      rw [List.count_cons, if_neg (by simp [hb]), Nat.add_zero]

theorem cdb_found (d : Nat) (needed : Int) :
    ∀ (rc : List Nat) (found : Int) (idx : Nat),
      found < needed → needed ≤ found + (rc.count d : Int) → idx + 1 = rc.length →
      ∃ j, j < rc.length ∧ rc.getD j 0 = d ∧
        ((rc.take j).count d : Int) = needed - found - 1 ∧
        countDelimsBack d needed rc found idx = (needed, some (idx - j)) := by
  intro rc
  induction rc with
  | nil =>
    intro found idx hlt hge _
    simp only [List.count_nil, Nat.cast_zero, Int.add_zero] at hge
    omega
  | cons b rbs ih =>
    intro found idx hlt hge hidx
    simp only [List.length_cons] at hidx
    rw [List.count_cons] at hge
    simp only [countDelimsBack]
    by_cases hb : b = d
    · rw [if_pos hb]
      by_cases hstop : found + 1 ≥ needed
      · refine ⟨0, by simp, by simpa using hb, ?_, ?_⟩
        · simp only [List.take_zero, List.count_nil, Nat.cast_zero]
          omega
        · rw [if_pos hstop]
          have : found + 1 = needed := by omega
          rw [this, Nat.sub_zero]
      · rw [if_neg hstop]
        have hne : rbs ≠ [] := by
          intro he
          rw [he] at hge
          simp only [List.count_nil, Nat.cast_zero] at hge
          rw [if_pos (by simp [hb])] at hge
          omega
        have hge' : needed ≤ found + 1 + (rbs.count d : Int) := by
          rw [if_pos (by simp [hb])] at hge
          push_cast at hge ⊢
          omega
        have hidx' : (idx - 1) + 1 = rbs.length := by
          have := List.length_pos.mpr hne
          omega
        obtain ⟨j, hj1, hj2, hj3, hj4⟩ := ih (found + 1) (idx - 1) (by omega) hge' hidx'
        refine ⟨j + 1, by simp; omega, by simpa using hj2, ?_, ?_⟩
        · rw [List.take_succ_cons, List.count_cons, if_pos (by simp [hb])]
          push_cast
          push_cast at hj3
          omega
        · rw [hj4]
          congr 1
          congr 1
          omega
    · rw [if_neg hb]
      rw [if_neg (by simp [hb]), Nat.add_zero] at hge
      have hne : rbs ≠ [] := by
        intro he
        rw [he] at hge
        simp only [List.count_nil, Nat.cast_zero] at hge
        omega
      have hidx' : (idx - 1) + 1 = rbs.length := by
        have := List.length_pos.mpr hne
        omega
      obtain ⟨j, hj1, hj2, hj3, hj4⟩ := ih found (idx - 1) hlt hge hidx'
      refine ⟨j + 1, by simp; omega, by simpa using hj2, ?_, ?_⟩
      · rw [List.take_succ_cons, List.count_cons, if_neg (by simp [hb]), Nat.add_zero]
        exact hj3
      · rw [hj4]
        congr 1
        congr 1
        omega

theorem backwardLoop_neg (d : Nat) (needed : Int) (content : List Nat) (pos : Nat)
    (found : Int) (h : ¬ (0 < pos ∧ found < needed)) :
    backwardLoop d needed content pos found = pos := by
  rw [backwardLoop, dif_neg h]

theorem backwardLoop_eq (d : Nat) (needed : Int) (content : List Nat) (pos : Nat)
    (found : Int) (h : 0 < pos ∧ found < needed) :
    backwardLoop d needed content pos found =
      match countDelimsBack d needed
          (((content.drop (pos - min chunkSize pos)).take (min chunkSize pos)).reverse) found
          (((content.drop (pos - min chunkSize pos)).take (min chunkSize pos)).length - 1) with
      | (_, some i) => pos - min chunkSize pos + i + 1
      | (found', none) => backwardLoop d needed content (pos - min chunkSize pos) found' := by
  rw [backwardLoop, dif_pos h]

theorem backwardLoop_spec (d : Nat) (needed : Int) (content : List Nat) :
    ∀ (pos : Nat), pos ≤ content.length → ∀ (found : Int),
      found = ((content.drop pos).count d : Int) → found < needed →
      backwardLoop d needed content pos found = 0 ∨
      (1 ≤ backwardLoop d needed content pos found ∧
       backwardLoop d needed content pos found ≤ content.length ∧
       content.getD (backwardLoop d needed content pos found - 1) 0 = d ∧
       ((content.drop (backwardLoop d needed content pos found)).count d : Int) =
         needed - 1) := by
  intro pos
  induction pos using Nat.strong_induction_on with
  | _ pos ih =>
  intro hle found hfound hflt
  by_cases hc : 0 < pos ∧ found < needed
  case neg =>
    rw [backwardLoop_neg d needed content pos found hc]
    left
    omega
  case pos =>
    have hrs1 : 1 ≤ min chunkSize pos := le_min (by norm_num [chunkSize]) hc.1
    have hrsle : min chunkSize pos ≤ pos := min_le_right _ _
    have hchlen : ((content.drop (pos - min chunkSize pos)).take (min chunkSize pos)).length
        = min chunkSize pos := by
      rw [List.length_take, List.length_drop]
      omega
    have hdecomp : content.drop (pos - min chunkSize pos) =
        (content.drop (pos - min chunkSize pos)).take (min chunkSize pos) ++
          content.drop pos := by
      conv_lhs => rw [← List.take_append_drop (min chunkSize pos)
        (content.drop (pos - min chunkSize pos))]
      congr 1
      rw [List.drop_drop]
      congr 1
      omega
    have hcount' : (((content.drop (pos - min chunkSize pos)).count d : Nat) : Int) =
        (((content.drop (pos - min chunkSize pos)).take (min chunkSize pos)).count d : Int)
          + found := by
      conv_lhs => rw [hdecomp]
      rw [List.count_append, hfound]
      push_cast
      ring
    rw [backwardLoop_eq d needed content pos found hc]
    by_cases henough : needed ≤ found +
        (((content.drop (pos - min chunkSize pos)).take (min chunkSize pos)).count d : Int)
    · obtain ⟨j, hj1, hj2, hj3, hj4⟩ := cdb_found d needed
        (((content.drop (pos - min chunkSize pos)).take (min chunkSize pos)).reverse) found
        (((content.drop (pos - min chunkSize pos)).take (min chunkSize pos)).length - 1)
        hflt (by rw [List.count_reverse]; exact henough)
        (by rw [List.length_reverse]; rw [hchlen]; omega)
      rw [hj4]
      dsimp only
      rw [List.length_reverse, hchlen] at hj1
      rw [hchlen]
      right
      refine ⟨?_, ?_, ?_, ?_⟩
      · show 1 ≤ pos - min chunkSize pos + (min chunkSize pos - 1 - j) + 1
        omega
      · show pos - min chunkSize pos + (min chunkSize pos - 1 - j) + 1 ≤ content.length
        omega
      · have hsub : pos - min chunkSize pos + (min chunkSize pos - 1 - j) + 1 - 1 =
            pos - min chunkSize pos + (min chunkSize pos - 1 - j) := by omega
        rw [hsub]
        have hrev : (((content.drop (pos - min chunkSize pos)).take
            (min chunkSize pos)).reverse).getD j 0 =
            ((content.drop (pos - min chunkSize pos)).take (min chunkSize pos)).getD
              (min chunkSize pos - 1 - j) 0 := by
          rw [List.getD_eq_getElem?_getD, List.getD_eq_getElem?_getD]
          rw [List.getElem?_reverse (by rw [hchlen]; omega), hchlen]
        have hchunkd : ((content.drop (pos - min chunkSize pos)).take
            (min chunkSize pos)).getD (min chunkSize pos - 1 - j) 0 =
            content.getD (pos - min chunkSize pos + (min chunkSize pos - 1 - j)) 0 := by
          rw [List.getD_eq_getElem?_getD, List.getD_eq_getElem?_getD]
          rw [List.getElem?_take, if_pos (by omega), List.getElem?_drop]
        rw [← hchunkd, ← hrev]
        exact hj2
      · have harith : pos - min chunkSize pos + (min chunkSize pos - 1 - j) + 1 =
            pos - min chunkSize pos + (min chunkSize pos - j) := by omega
        rw [harith]
        have hdrop2 : content.drop (pos - min chunkSize pos + (min chunkSize pos - j)) =
            ((content.drop (pos - min chunkSize pos)).take (min chunkSize pos)).drop
              (min chunkSize pos - j) ++ content.drop pos := by
          rw [← List.drop_drop]
          conv_lhs => rw [hdecomp]
          rw [List.drop_append_of_le_length (by rw [hchlen]; omega)]
        rw [hdrop2, List.count_append]
        have hdropchunk : ((content.drop (pos - min chunkSize pos)).take
            (min chunkSize pos)).drop (min chunkSize pos - j) =
            ((((content.drop (pos - min chunkSize pos)).take
              (min chunkSize pos)).reverse).take j).reverse := by
          rw [eq_comm, List.reverse_eq_iff, List.reverse_drop, hchlen]
          congr 1
          omega
        rw [hdropchunk, Nat.cast_add, List.count_reverse]
        push_cast at hj3 ⊢
        omega
    · have hnone := cdb_none d needed
        (((content.drop (pos - min chunkSize pos)).take (min chunkSize pos)).reverse) found
        (((content.drop (pos - min chunkSize pos)).take (min chunkSize pos)).length - 1)
        (by rw [List.count_reverse]; omega)
      rw [hnone]
      have hfound' : found +
          ((((content.drop (pos - min chunkSize pos)).take
            (min chunkSize pos)).reverse).count d : Int) =
          ((content.drop (pos - min chunkSize pos)).count d : Int) := by
        rw [List.count_reverse, hcount']
        ring
      rw [hfound']
      exact ih (pos - min chunkSize pos) (by omega) (by omega) _ rfl (by omega)

/-! ## Token structure across a delimiter boundary (C2/C4) -/

/-- Stripping an empty token is a no-op for every split kind. -/
theorem SplitKind.strip_nil (k : SplitKind) : k.strip [] = [] := by
  cases k
  · simp [SplitKind.strip, stripCR]
  · rfl

/-- `allTokens` distributes over a boundary that ends with the delimiter. -/
theorem allTokens_append (k : SplitKind) :
    ∀ (xs ys : List Nat), xs.getLast? = some k.delim →
      allTokens k (xs ++ ys) = allTokens k xs ++ allTokens k ys := by
  have main : ∀ (len : Nat) (xs ys : List Nat), xs.length = len →
      xs.getLast? = some k.delim →
      allTokens k (xs ++ ys) = allTokens k xs ++ allTokens k ys := by
    intro len
    induction len using Nat.strong_induction_on with
    | _ len ih =>
    intro xs ys hlen hlast
    have hmem : k.delim ∈ xs := by
      rw [List.getLast?_eq_getElem?] at hlast
      exact List.getElem?_mem hlast
    rcases hf : findDelim k.delim xs with _ | i
    · exact absurd hmem (findDelim_none_iff.mp hf)
    · obtain ⟨hnotin, hxs⟩ := findDelim_decomp hf
      have hilt : i < xs.length := findDelim_lt hf
      have h1 : xs ++ ys = xs.take i ++ k.delim :: (xs.drop (i + 1) ++ ys) := by
        conv_lhs => rw [← hxs]
        simp
      have h2 : allTokens k (xs ++ ys)
          = k.strip (xs.take i) :: allTokens k (xs.drop (i + 1) ++ ys) := by
        rw [h1]
        exact allTokens_cons k _ _ hnotin
      have h3 : allTokens k xs
          = k.strip (xs.take i) :: allTokens k (xs.drop (i + 1)) := by
        conv_lhs => rw [← hxs]
        exact allTokens_cons k _ _ hnotin
      rw [h2, h3, List.cons_append]
      congr 1
      by_cases hrne : xs.drop (i + 1) = []
      · rw [hrne, List.nil_append, allTokens_nil, List.nil_append]
      · have hlt : (xs.drop (i + 1)).length < len := by
          simp only [List.length_drop]
          omega
        have hrl : (xs.drop (i + 1)).getLast? = some k.delim := by
          rw [← hlast]
          conv_rhs => rw [← hxs]
          rw [show xs.take i ++ k.delim :: xs.drop (i + 1)
              = (xs.take i ++ [k.delim]) ++ xs.drop (i + 1) from by simp]
          rw [List.getLast?_append_of_ne_nil _ hrne]
        exact ih _ hlt _ ys rfl hrl
  intro xs ys h
  exact main xs.length xs ys rfl h

/-- `TokensOk` splits across a boundary that ends with the delimiter. -/
theorem TokensOk_append (k : SplitKind) :
    ∀ (xs ys : List Nat), xs.getLast? = some k.delim →
      (TokensOk k (xs ++ ys) ↔ TokensOk k xs ∧ TokensOk k ys) := by
  have main : ∀ (len : Nat) (xs ys : List Nat), xs.length = len →
      xs.getLast? = some k.delim →
      (TokensOk k (xs ++ ys) ↔ TokensOk k xs ∧ TokensOk k ys) := by
    intro len
    induction len using Nat.strong_induction_on with
    | _ len ih =>
    intro xs ys hlen hlast
    have hmem : k.delim ∈ xs := by
      rw [List.getLast?_eq_getElem?] at hlast
      exact List.getElem?_mem hlast
    have hxne : xs ≠ [] := by
      intro he
      rw [he] at hmem
      exact absurd hmem (List.not_mem_nil _)
    have hxyne : xs ++ ys ≠ [] := by
      intro he
      exact hxne (List.append_eq_nil.mp he).1
    rcases hf : findDelim k.delim xs with _ | i
    · exact absurd hmem (findDelim_none_iff.mp hf)
    · obtain ⟨hnotin, hxs⟩ := findDelim_decomp hf
      have hilt : i < xs.length := findDelim_lt hf
      have hrunx : k.run true xs = (i + 1, some (k.strip (xs.take i))) := by
        rw [SplitKind.run_eq k xs hxne, hf]
      have hrunxy : k.run true (xs ++ ys)
          = (i + 1, some (k.strip ((xs ++ ys).take i))) := by
        rw [SplitKind.run_eq k _ hxyne, findDelim_append_left ys hf]
      have hdropxy : (xs ++ ys).drop (i + 1) = xs.drop (i + 1) ++ ys :=
        List.drop_append_of_le_length (by omega)
      have hsnxy : scanNeed k (xs ++ ys) = i + 1 :=
        scanNeed_found (findDelim_append_left ys hf)
      have hsnx : scanNeed k xs = i + 1 := scanNeed_found hf
      rw [TokensOk_step k (xs ++ ys) hxyne, hrunxy]
      dsimp only
      rw [hdropxy, hsnxy]
      rw [TokensOk_step k xs hxne, hrunx]
      dsimp only
      rw [hsnx]
      by_cases hrne : xs.drop (i + 1) = []
      · rw [hrne, List.nil_append]
        constructor
        · intro ⟨ha, hb⟩
          exact ⟨⟨ha, hrne ▸ TokensOk_nil k⟩, hb⟩
        · intro ⟨⟨ha, _⟩, hb⟩
          exact ⟨ha, hb⟩
      · have hlt : (xs.drop (i + 1)).length < len := by
          simp only [List.length_drop]
          omega
        have hrl : (xs.drop (i + 1)).getLast? = some k.delim := by
          rw [← hlast]
          conv_rhs => rw [← hxs]
          rw [show xs.take i ++ k.delim :: xs.drop (i + 1)
              = (xs.take i ++ [k.delim]) ++ xs.drop (i + 1) from by simp]
          rw [List.getLast?_append_of_ne_nil _ hrne]
        rw [ih _ hlt _ ys rfl hrl]
        rw [and_assoc]
  intro xs ys h
  exact main xs.length xs ys rfl h

/-- Each delimiter occurrence opens a token, so the number of tokens is at
least the number of delimiters. -/
theorem count_le_tokens (k : SplitKind) :
    ∀ (ys : List Nat), ys.count k.delim ≤ (allTokens k ys).length := by
  have main : ∀ (len : Nat) (ys : List Nat), ys.length = len →
      ys.count k.delim ≤ (allTokens k ys).length := by
    intro len
    induction len using Nat.strong_induction_on with
    | _ len ih =>
    intro ys hlen
    rcases hf : findDelim k.delim ys with _ | i
    · rw [List.count_eq_zero.mpr (findDelim_none_iff.mp hf)]
      exact Nat.zero_le _
    · obtain ⟨hnotin, hys⟩ := findDelim_decomp hf
      have hilt : i < ys.length := findDelim_lt hf
      have htok : allTokens k ys
          = k.strip (ys.take i) :: allTokens k (ys.drop (i + 1)) := by
        conv_lhs => rw [← hys]
        exact allTokens_cons k _ _ hnotin
      have hcnt : ys.count k.delim = (ys.drop (i + 1)).count k.delim + 1 := by
        conv_lhs => rw [← hys]
        rw [List.count_append, List.count_cons]
        rw [List.count_eq_zero.mpr hnotin]
        simp
      have hrec := ih _ (show (ys.drop (i + 1)).length < len by
        simp only [List.length_drop]; omega) (ys.drop (i + 1)) rfl
      rw [htok, hcnt, List.length_cons]
      omega
  intro ys
  exact main ys.length ys rfl

/-- A pure run of delimiters splits into that many empty lines. -/
theorem allTokens_replicate (k : SplitKind) :
    ∀ (m : Nat), allTokens k (List.replicate m k.delim) = List.replicate m [] := by
  intro m
  induction m with
  | zero => simp [allTokens_nil]
  | succ m ihm =>
    rw [List.replicate_succ,
      show k.delim :: List.replicate m k.delim
        = [] ++ k.delim :: List.replicate m k.delim from rfl]
    rw [allTokens_cons k [] _ (by simp), SplitKind.strip_nil, ihm,
      List.replicate_succ]

/-- The reader the tailer builds is the scanner state for `splitKindOf`. -/
theorem newLineReader_eq (zt : Bool) (data : List Nat) :
    newLineReader zt data = ⟨splitKindOf zt, data, none⟩ := by
  cases zt <;> rfl

/-- An empty line list reads out of the ring as the empty list. -/
theorem lastN_nil {α : Type} (d0 : α) (n : Nat) : lastN d0 n [] = [] := by
  simp [lastN, ringLoop, ringRead]

/-- Forward scan under `TokensOk`: the last `n` of all split tokens. -/
theorem forward_ok (zt : Bool) (cfgLines : Int) (content : List Nat)
    (hok : TokensOk (splitKindOf zt) content) :
    readLastNLinesForward zt cfgLines content =
      .ok (lastN [] (if cfgLines ≤ 0 then 10 else cfgLines.toNat)
        (allTokens (splitKindOf zt) content)) := by
  unfold readLastNLinesForward
  rw [newLineReader_eq]
  rw [(readAll_ok_iff (splitKindOf zt) content
    (allTokens (splitKindOf zt) content)).mpr ⟨hok, rfl⟩]
  simp only [Except.map]

/-- The backward chunked scan agrees with the forward ring-buffer scan for
every set line count (`cfgLines ≥ 1`) on every content whose lines all
scan within the buffer limit. -/
theorem backward_eq_forward (zt : Bool) (cfgLines : Int) (content : List Nat)
    (hN : 1 ≤ cfgLines) (hok : TokensOk (splitKindOf zt) content) :
    readLastNLinesBackward zt cfgLines content =
      readLastNLinesForward zt cfgLines content := by
  by_cases h0 : content.length = 0
  · have hnil : content = [] := List.length_eq_zero.mp h0
    subst hnil
    rw [readLastNLinesBackward, if_pos (show ([] : List Nat).length = 0 from rfl)]
    rw [forward_ok zt cfgLines [] hok, allTokens_nil, lastN_nil]
  · by_cases hsmall : content.length ≤ chunkSize
    · rw [readLastNLinesBackward, if_neg h0, if_pos hsmall]
    · rw [readLastNLinesBackward, if_neg h0, if_neg hsmall]
      show readLastNLinesForward zt cfgLines
          (content.drop (backwardLoop (if zt then 0 else 10) (cfgLines + 1)
            content content.length 0)) =
        readLastNLinesForward zt cfgLines content
      have hspec := backwardLoop_spec (if zt then 0 else 10) (cfgLines + 1)
        content content.length le_rfl 0 (by simp) (by omega)
      set r := backwardLoop (if zt then 0 else 10) (cfgLines + 1) content
        content.length 0 with hrdef
      rcases hspec with hz | ⟨h1, h2, h3, h4⟩
      · rw [hz, List.drop_zero]
      · have hdd : (splitKindOf zt).delim = (if zt then 0 else 10) := by
          cases zt <;> rfl
        have hxlen : (content.take r).length = r := by
          rw [List.length_take]
          omega
        have hxlast : (content.take r).getLast? = some (splitKindOf zt).delim := by
          rw [List.getLast?_eq_getElem?, hxlen]
          rw [List.getElem?_take, if_pos (by omega)]
          rw [List.getElem?_eq_getElem (show r - 1 < content.length by omega)]
          rw [hdd]
          exact congrArg some ((List.getD_eq_getElem content 0
            (show r - 1 < content.length by omega)).symm.trans h3)
        have hsplit : content.take r ++ content.drop r = content :=
          List.take_append_drop r content
        have hokxy : TokensOk (splitKindOf zt) (content.take r ++ content.drop r) := by
          rw [hsplit]
          exact hok
        have hoks := (TokensOk_append (splitKindOf zt) (content.take r)
          (content.drop r) hxlast).mp hokxy
        have hta : allTokens (splitKindOf zt) content
            = allTokens (splitKindOf zt) (content.take r)
              ++ allTokens (splitKindOf zt) (content.drop r) := by
          conv_lhs => rw [← hsplit]
          exact allTokens_append (splitKindOf zt) _ _ hxlast
        rw [forward_ok zt cfgLines content hok,
          forward_ok zt cfgLines (content.drop r) hoks.2]
        rw [if_neg (show ¬ cfgLines ≤ 0 by omega)]
        congr 1
        rw [hta]
        have hn1 : 1 ≤ cfgLines.toNat := by omega
        have hcnt : (content.drop r).count (splitKindOf zt).delim = cfgLines.toNat := by
          rw [hdd]
          omega
        have hnle : cfgLines.toNat
            ≤ (allTokens (splitKindOf zt) (content.drop r)).length := by
          have hc := count_le_tokens (splitKindOf zt) (content.drop r)
          rw [hcnt] at hc
          exact hc
        rw [lastN_eq_drop [] hn1, lastN_eq_drop [] hn1, List.length_append]
        rw [show (allTokens (splitKindOf zt) (content.take r)).length
              + (allTokens (splitKindOf zt) (content.drop r)).length - cfgLines.toNat
            = (allTokens (splitKindOf zt) (content.take r)).length
              + ((allTokens (splitKindOf zt) (content.drop r)).length - cfgLines.toNat)
          from by omega]
        rw [List.drop_append]

/-- **C2** (amended): for every delimiter choice (`-z` or newline), every
requested line count `N ≥ 1`, and every content all of whose lines scan
within the maximum line length, the backward chunked scan used for
seekable files returns exactly the same sequence of lines as the forward
ring-buffer scan applied to the whole file.  (The original claim is wrong
for a zero/unset line count: the backward scan then searches for a single
delimiter while the forward scan defaults to the last 10 lines, see the
counterexample.) -/
theorem readLastNLines_backward_eq_forward (zt : Bool) (cfgLines : Int)
    (content : List Nat) (hN : 1 ≤ cfgLines)
    (hok : TokensOk (splitKindOf zt) content) :
    readLastNLines zt cfgLines true content =
      readLastNLinesForward zt cfgLines content := by
  rw [readLastNLines, if_pos rfl]
  exact backward_eq_forward zt cfgLines content hN hok

theorem readLastNLines_backward_eq_forward_witness :
    readLastNLines false 2 true (List.replicate 65537 10) =
      readLastNLinesForward false 2 (List.replicate 65537 10) :=
  readLastNLines_backward_eq_forward false 2 (List.replicate 65537 10) (by norm_num)
    (TokensOk_small _ _ (by rw [List.length_replicate]; norm_num [maxLineSize]))

/-- One step of the backward delimiter count. -/
theorem cdb_cons (d : Nat) (needed : Int) (b : Nat) (rbs : List Nat)
    (found : Int) (idx : Nat) :
    countDelimsBack d needed (b :: rbs) found idx =
      if b = d then
        if found + 1 ≥ needed then (found + 1, some idx)
        else countDelimsBack d needed rbs (found + 1) (idx - 1)
      else countDelimsBack d needed rbs found (idx - 1) := rfl

/-- **C2** counterexample: on a seekable file of 65537 newline bytes with
the line count zero/unset, the backward chunked scan returns no lines at
all while the forward ring-buffer scan returns the default last 10
(empty) lines. -/
theorem readLastNLines_backward_cex :
    readLastNLines false 0 true (List.replicate 65537 10) = .ok [] ∧
    readLastNLinesForward false 0 (List.replicate 65537 10) =
      .ok (List.replicate 10 []) := by
  have hok : TokensOk (splitKindOf false) (List.replicate 65537 10) :=
    TokensOk_small _ _ (by rw [List.length_replicate]; norm_num [maxLineSize])
  have htok : allTokens (splitKindOf false) (List.replicate 65537 10)
      = List.replicate 65537 [] := allTokens_replicate (splitKindOf false) 65537
  constructor
  · have hmin : min chunkSize 65537 = 65536 := by norm_num [chunkSize]
    have hchunk : ((List.replicate 65537 10).drop (65537 - min chunkSize 65537)).take
        (min chunkSize 65537) = List.replicate 65536 10 := by
      rw [hmin, show (65537 : Nat) - 65536 = 1 from by norm_num, List.drop_replicate,
        show (65537 : Nat) - 1 = 65536 from by norm_num, List.take_replicate, min_self]
    have hcdb : countDelimsBack 10 (0 + 1) (List.replicate 65536 10).reverse 0
        ((List.replicate 65536 10).length - 1) = (0 + 1, some 65535) := by
      rw [List.reverse_replicate, List.length_replicate,
        show (65536 : Nat) - 1 = 65535 from by norm_num]
      rw [show (List.replicate 65536 10 : List Nat)
          = 10 :: List.replicate 65535 10 from by
        rw [show (65536 : Nat) = 65535 + 1 from by norm_num, List.replicate_succ]]
      rw [cdb_cons, if_pos rfl, if_pos (by norm_num)]
    have hpos : backwardLoop 10 (0 + 1) (List.replicate 65537 10) 65537 0 = 65537 := by
      rw [backwardLoop_eq 10 (0 + 1) (List.replicate 65537 10) 65537 0
        ⟨by norm_num, by norm_num⟩]
      rw [hchunk, hcdb]
      dsimp only
      rw [hmin]
    rw [readLastNLines, if_pos rfl, readLastNLinesBackward,
      if_neg (by rw [List.length_replicate]; norm_num),
      if_neg (by rw [List.length_replicate]; norm_num [chunkSize])]
    show readLastNLinesForward false 0 ((List.replicate 65537 10).drop
        (backwardLoop 10 (0 + 1) (List.replicate 65537 10)
          (List.replicate 65537 10).length 0)) = .ok []
    rw [List.length_replicate, hpos, List.drop_replicate,
      show (65537 : Nat) - 65537 = 0 from by norm_num, List.replicate_zero]
    rw [forward_ok false 0 [] (TokensOk_nil _), allTokens_nil, lastN_nil]
  · rw [forward_ok false 0 _ hok, htok]
    rw [show (if (0 : Int) ≤ 0 then 10 else (0 : Int).toNat) = 10 from rfl]
    have hlast10 : lastN ([] : List Nat) 10 (List.replicate 65537 [])
        = List.replicate 10 [] := by
      rw [lastN_eq_drop [] (by norm_num), List.length_replicate,
        show (65537 : Nat) - 10 = 65527 from by norm_num, List.drop_replicate,
        show (65537 : Nat) - 65527 = 10 from by norm_num]
    rw [hlast10]

/-! ## Output reproduction (C4) -/

/-- `writeLines` distributes over list append. -/
theorem writeLines_append (zt : Bool) (a b : List (List Nat)) :
    writeLines zt (a ++ b) = writeLines zt a ++ writeLines zt b := by
  simp [writeLines]

/-- `writeLines` on a cons emits the line, the delimiter, then the rest. -/
theorem writeLines_cons (zt : Bool) (x : List Nat) (ts : List (List Nat)) :
    writeLines zt (x :: ts) = (x ++ [if zt then 0 else 10]) ++ writeLines zt ts := by
  simp [writeLines]

/-- Rejoining the scanned lines with the output delimiter reproduces the
file exactly when the file ends in the delimiter and (in newline mode)
contains no CR byte. -/
theorem writeLines_allTokens (zt : Bool) : ∀ (content : List Nat),
    (zt = false → 13 ∉ content) →
    (content = [] ∨ content.getLast? = some (if zt then 0 else 10)) →
    writeLines zt (allTokens (splitKindOf zt) content) = content := by
  have main : ∀ (len : Nat) (content : List Nat), content.length = len →
      (zt = false → 13 ∉ content) →
      (content = [] ∨ content.getLast? = some (if zt then 0 else 10)) →
      writeLines zt (allTokens (splitKindOf zt) content) = content := by
    intro len
    induction len using Nat.strong_induction_on with
    | _ len ih =>
    intro content hlen hcr hend
    rcases hend with hnil | hlast
    · rw [hnil, allTokens_nil]
      rfl
    · have hdd : (splitKindOf zt).delim = (if zt then 0 else 10) := by
        cases zt <;> rfl
      have hlast' : content.getLast? = some (splitKindOf zt).delim := by
        rw [hdd]
        exact hlast
      have hmem : (splitKindOf zt).delim ∈ content := by
        rw [List.getLast?_eq_getElem?] at hlast'
        exact List.getElem?_mem hlast'
      rcases hf : findDelim (splitKindOf zt).delim content with _ | i
      · exact absurd hmem (findDelim_none_iff.mp hf)
      · obtain ⟨hnotin, hxs⟩ := findDelim_decomp hf
        have hilt : i < content.length := findDelim_lt hf
        have htok : allTokens (splitKindOf zt) content
            = (splitKindOf zt).strip (content.take i)
              :: allTokens (splitKindOf zt) (content.drop (i + 1)) := by
          conv_lhs => rw [← hxs]
          exact allTokens_cons _ _ _ hnotin
        have hstrip : (splitKindOf zt).strip (content.take i) = content.take i := by
          cases hz : zt
          · exact stripCR_of_not_mem (fun hm => hcr hz (List.take_subset i content hm))
          · rfl
        have hrest : writeLines zt (allTokens (splitKindOf zt) (content.drop (i + 1)))
            = content.drop (i + 1) := by
          by_cases hrne : content.drop (i + 1) = []
          · rw [hrne, allTokens_nil]
            rfl
          · refine ih _ ?_ _ rfl ?_ (Or.inr ?_)
            · simp only [List.length_drop]
              omega
            · intro hz hm
              exact hcr hz (List.drop_subset (i + 1) content hm)
            · rw [← hdd, ← hlast']
              conv_rhs => rw [← hxs]
              rw [show content.take i ++ (splitKindOf zt).delim :: content.drop (i + 1)
                  = (content.take i ++ [(splitKindOf zt).delim]) ++ content.drop (i + 1)
                from by simp]
              rw [List.getLast?_append_of_ne_nil _ hrne]
        rw [htok, writeLines_cons, hstrip, hrest]
        conv_rhs => rw [← hxs]
        rw [← hdd]
        simp
  intro content hcr hend
  exact main content.length content rfl hcr hend

/-- **C4** (amended): for a seekable file and a request for the last
`N ≥ 1` lines without follow, when the file ends with the selected
delimiter, contains no CR byte in newline mode, and scans successfully
into the lines `ls`, the emitted bytes are exactly the last `N` of those
lines each re-terminated with the delimiter, and they are a byte-for-byte
suffix of the file.  (The original claim is wrong without these
provisos: a final line with no trailing delimiter is emitted with a
delimiter appended, so the output is not the identical byte sequence,
see the counterexample.) -/
theorem tailOutput_suffix (zt : Bool) (N : Int) (content : List Nat)
    (ls : List (List Nat)) (hN : 1 ≤ N) (hcr : zt = false → 13 ∉ content)
    (hend : content = [] ∨ content.getLast? = some (if zt then 0 else 10))
    (hread : readAll (newLineReader zt content) = .ok ls) :
    tailOutput zt N content = .ok (writeLines zt (ls.drop (ls.length - N.toNat))) ∧
    writeLines zt (ls.drop (ls.length - N.toNat)) <:+ content := by
  rw [newLineReader_eq] at hread
  obtain ⟨hok, hls⟩ := (readAll_ok_iff (splitKindOf zt) content ls).mp hread
  have hjoin : writeLines zt ls = content := by
    rw [hls]
    exact writeLines_allTokens zt content hcr hend
  constructor
  · rw [tailOutput, readLastNLines, if_pos rfl,
      backward_eq_forward zt N content hN hok, forward_ok zt N content hok]
    simp only [Except.map]
    rw [if_neg (show ¬ N ≤ 0 by omega)]
    rw [lastN_eq_drop [] (by omega)]
    rw [← hls]
  · have hsfx : writeLines zt (ls.take (ls.length - N.toNat))
        ++ writeLines zt (ls.drop (ls.length - N.toNat)) = content := by
      rw [← writeLines_append, List.take_append_drop, hjoin]
    exact ⟨writeLines zt (ls.take (ls.length - N.toNat)), hsfx⟩

theorem tailOutput_suffix_witness :
    tailOutput false 1 [97, 10, 98, 10] = .ok [98, 10] ∧
    ([98, 10] : List Nat) <:+ [97, 10, 98, 10] := by
  have h1 := allTokens_cons SplitKind.crlf [97] [98, 10] (by decide)
  rw [show SplitKind.crlf.strip [97] = [97] from by decide] at h1
  have h2 := allTokens_cons SplitKind.crlf [98] [] (by decide)
  rw [show SplitKind.crlf.strip [98] = [98] from by decide] at h2
  have h1' : allTokens SplitKind.crlf [97, 10, 98, 10]
      = [97] :: allTokens SplitKind.crlf [98, 10] := h1
  have h2' : allTokens SplitKind.crlf [98, 10]
      = [98] :: allTokens SplitKind.crlf [] := h2
  have htok : allTokens SplitKind.crlf [97, 10, 98, 10] = [[97], [98]] := by
    rw [h1', h2', allTokens_nil]
  have hread : readAll (newLineReader false [97, 10, 98, 10]) = .ok [[97], [98]] := by
    rw [newLineReader_eq]
    rw [show splitKindOf false = SplitKind.crlf from rfl]
    rw [readAll_small SplitKind.crlf _ (by decide), htok]
  have h := tailOutput_suffix false 1 [97, 10, 98, 10] [[97], [98]] (by norm_num)
    (fun _ => by decide) (Or.inr (by decide)) hread
  exact ⟨h.1.trans rfl, h.2⟩

/-- **C4** counterexample: the file `"a\nb"` has no trailing newline; the
last-1-line output is `"b\n"` with a newline appended, which is not a
byte suffix of the file (the file ends in `b`, the output in `\n`). -/
theorem tailOutput_cex :
    tailOutput false 1 [97, 10, 98] = .ok [98, 10] ∧
    ¬ (([98, 10] : List Nat) <:+ [97, 10, 98]) := by
  constructor
  · have h1 := allTokens_cons SplitKind.crlf [97] [98] (by decide)
    rw [show SplitKind.crlf.strip [97] = [97] from by decide] at h1
    have h1' : allTokens SplitKind.crlf [97, 10, 98]
        = [97] :: allTokens SplitKind.crlf [98] := h1
    have h2 := allTokens_last SplitKind.crlf [98] (by decide) (by decide)
    rw [show SplitKind.crlf.strip [98] = [98] from by decide] at h2
    have htok : allTokens (splitKindOf false) [97, 10, 98] = [[97], [98]] := by
      show allTokens SplitKind.crlf [97, 10, 98] = [[97], [98]]
      rw [h1', h2]
    rw [tailOutput, readLastNLines, if_pos rfl, readLastNLinesBackward,
      if_neg (by decide), if_pos (by decide),
      forward_ok false 1 _ (TokensOk_small _ _ (by decide)), htok]
    simp only [Except.map]
    rw [show (if (1 : Int) ≤ 0 then 10 else (1 : Int).toNat) = 1 from rfl]
    rw [lastN_eq_drop [] (by norm_num)]
    rfl
  · decide
end Wail
